import Mathlib

/-!
Verification development for the schematic-to-commands pipeline of
SchematicPacker (server/commands.mjs).  Pure functions of the source are
embedded as Lean functions; machine integers are modelled as Nat with
explicit masks where the source masks; JavaScript objects are modelled as
association lists with first-match lookup; the mutation of the shared
java-to-bedrock translation table performed by translateBlock is modelled
by threading the table value through the functions that the source lets
mutate it.
-/

namespace SchemPack

/-! ### Packed block states (decodePackedBlockStates, commands.mjs lines 140-159)

The source works on BigInt64Array entries, masking each long with
(1n<<64n)-1n to obtain its unsigned 64-bit value; we model the long array
as a list of Nat and keep the mask.  Out-of-range reads are modelled as 0
(the encoder below always provides enough longs, so the straddling read of
longIndex+1 stays in bounds on encoder output). -/

def decodeEntry (longArr : List Nat) (bitsPerEntry i : Nat) : Nat :=
  let maskVal := 2 ^ bitsPerEntry - 1
  let bitIndex := i * bitsPerEntry
  let longIndex := bitIndex / 64
  let startBit := bitIndex % 64
  let base := (longArr.getD longIndex 0) &&& (2 ^ 64 - 1)
  let val := (base >>> startBit) &&& maskVal
  let endBit := startBit + bitsPerEntry
  if 64 < endBit then
    let bitsFromNext := endBit - 64
    let nextBase := (longArr.getD (longIndex + 1) 0) &&& (2 ^ 64 - 1)
    let nextPart := (nextBase &&& (2 ^ bitsFromNext - 1)) <<< (64 - startBit)
    val ||| (nextPart &&& maskVal)
  else val

def decodePackedBlockStates (longArr : List Nat) (count bitsPerEntry : Nat) : List Nat :=
  (List.range count).map (decodeEntry longArr bitsPerEntry)

/-- Modelled from the spec: the reference straddling encoder (spec 4.3 packed
longs and 8: entry i occupies bits [i*bpe, (i+1)*bpe) of the little-endian
bit stream, packed into unsigned 64-bit longs; entries may straddle adjacent
longs).  The whole bit stream is the natural number packNat, and long j is
its j-th 64-bit limb. -/
def packNat (xs : List Nat) (bpe : Nat) : Nat :=
  xs.foldr (fun x acc => x + acc * 2 ^ bpe) 0

def encodePacked (xs : List Nat) (bpe : Nat) : List Nat :=
  (List.range ((xs.length * bpe + 63) / 64)).map
    (fun j => packNat xs bpe / 2 ^ (64 * j) % 2 ^ 64)

end SchemPack

namespace SchemPack

theorem packNat_lt (xs : List Nat) (bpe : Nat) (h : ∀ x ∈ xs, x < 2 ^ bpe) :
    packNat xs bpe < 2 ^ (bpe * xs.length) := by
  induction xs with
  | nil => simp [packNat]
  | cons a t ih =>
    have ha : a < 2 ^ bpe := h a (by simp)
    have ht : packNat t bpe < 2 ^ (bpe * t.length) := ih (fun x hx => h x (by simp [hx]))
    have : a + packNat t bpe * 2 ^ bpe < 2 ^ bpe * 2 ^ (bpe * t.length) := by
      calc a + packNat t bpe * 2 ^ bpe
          < 2 ^ bpe + packNat t bpe * 2 ^ bpe := by omega
        _ = (packNat t bpe + 1) * 2 ^ bpe := by ring
        _ ≤ 2 ^ (bpe * t.length) * 2 ^ bpe := by
            exact Nat.mul_le_mul_right _ (by omega)
        _ = 2 ^ bpe * 2 ^ (bpe * t.length) := by ring
    simpa [packNat, List.length_cons, Nat.mul_succ, Nat.pow_add, Nat.mul_comm] using this

theorem packNat_extract (xs : List Nat) (bpe : Nat) (h : ∀ x ∈ xs, x < 2 ^ bpe) :
    ∀ i, i < xs.length → packNat xs bpe / 2 ^ (i * bpe) % 2 ^ bpe = xs.getD i 0 := by
  induction xs with
  | nil => intro i hi; simp at hi
  | cons a t ih =>
    intro i hi
    cases i with
    | zero =>
      have ha : a < 2 ^ bpe := h a (by simp)
      simp [packNat, Nat.add_mul_mod_self_right, Nat.mod_eq_of_lt ha]
    | succ n =>
      have ha : a < 2 ^ bpe := h a (by simp)
      have hdiv : (a + packNat t bpe * 2 ^ bpe) / 2 ^ bpe = packNat t bpe := by
        rw [Nat.add_mul_div_right _ _ (Nat.two_pow_pos bpe), Nat.div_eq_of_lt ha, Nat.zero_add]
      have : packNat (a :: t) bpe / 2 ^ ((n + 1) * bpe) % 2 ^ bpe
          = packNat t bpe / 2 ^ (n * bpe) % 2 ^ bpe := by
        have hp : (n + 1) * bpe = bpe + n * bpe := by ring
        rw [hp, Nat.pow_add, ← Nat.div_div_eq_div_mul]
        show (a + packNat t bpe * 2 ^ bpe) / 2 ^ bpe / 2 ^ (n * bpe) % 2 ^ bpe = _
        rw [hdiv]
      rw [this, ih (fun x hx => h x (by simp [hx])) n (by simpa using hi)]
      simp

/-- The j-th long produced by the encoder, with zero default beyond the end. -/
theorem encodePacked_getD (xs : List Nat) (bpe : Nat) (h : ∀ x ∈ xs, x < 2 ^ bpe)
    (j : Nat) : (encodePacked xs bpe).getD j 0 = packNat xs bpe / 2 ^ (64 * j) % 2 ^ 64 := by
  by_cases hj : j < (xs.length * bpe + 63) / 64
  · have hlen : j < (encodePacked xs bpe).length := by
      simpa [encodePacked] using hj
    rw [List.getD_eq_getElem _ _ hlen]
    simp [encodePacked]
  · have hlen : (encodePacked xs bpe).length ≤ j := by
      simpa [encodePacked] using Nat.le_of_not_lt hj
    rw [List.getD_eq_default _ _ hlen]
    have hb : packNat xs bpe < 2 ^ (64 * j) := by
      have h1 : packNat xs bpe < 2 ^ (bpe * xs.length) := packNat_lt xs bpe h
      have h2 : bpe * xs.length ≤ 64 * j := by
        have h3 : (xs.length * bpe + 63) / 64 ≤ j := Nat.le_of_not_lt hj
        have h4 : xs.length * bpe + 63 < (j + 1) * 64 :=
          (Nat.div_lt_iff_lt_mul (by omega)).mp (by omega)
        have h5 : bpe * xs.length = xs.length * bpe := Nat.mul_comm _ _
        omega
      exact lt_of_lt_of_le h1 (Nat.pow_le_pow_right (by omega) h2)
    rw [Nat.div_eq_of_lt hb]
    simp

/-- Dividing a low-bits slice: (a % 2^m) / 2^s = a / 2^s % 2^(m-s) for s ≤ m. -/
theorem mod_two_pow_div (a m s : Nat) (hs : s ≤ m) :
    (a % 2 ^ m) / 2 ^ s = a / 2 ^ s % 2 ^ (m - s) := by
  have hm : 2 ^ m = 2 ^ s * 2 ^ (m - s) := by
    rw [← Nat.pow_add]; congr 1; omega
  have key : ∀ X Y : Nat, (2 ^ m * X + Y) / 2 ^ s = Y / 2 ^ s + 2 ^ (m - s) * X := by
    intro X Y
    have hsplit : 2 ^ m * X + Y = Y + 2 ^ (m - s) * X * 2 ^ s := by
      rw [hm]; ring
    rw [hsplit, Nat.add_mul_div_right _ _ (Nat.two_pow_pos s)]
  have hlt : a % 2 ^ m / 2 ^ s < 2 ^ (m - s) := by
    apply Nat.div_lt_of_lt_mul
    calc a % 2 ^ m < 2 ^ m := Nat.mod_lt _ (Nat.two_pow_pos m)
      _ = 2 ^ s * 2 ^ (m - s) := hm
  conv_rhs => rw [← Nat.div_add_mod a (2 ^ m), key]
  rw [Nat.add_mul_mod_self_left, Nat.mod_eq_of_lt hlt]

end SchemPack

namespace SchemPack

set_option maxHeartbeats 1000000 in
theorem decodeEntry_encodePacked (xs : List Nat) (bpe : Nat) (hbpe : 0 < bpe)
    (hbpe64 : bpe ≤ 64) (h : ∀ x ∈ xs, x < 2 ^ bpe) (i : Nat) :
    decodeEntry (encodePacked xs bpe) bpe i
      = packNat xs bpe / 2 ^ (i * bpe) % 2 ^ bpe := by
  have hsb64 : i * bpe % 64 < 64 := Nat.mod_lt _ (by omega)
  have hidx : 64 * (i * bpe / 64) + i * bpe % 64 = i * bpe := Nat.div_add_mod _ _
  have mm : ∀ x : Nat, x % 2 ^ 64 % 2 ^ 64 = x % 2 ^ 64 :=
    fun x => Nat.mod_mod_of_dvd _ dvd_rfl
  simp only [decodeEntry, encodePacked_getD xs bpe h, Nat.and_pow_two_sub_one_eq_mod,
    mm, Nat.shiftRight_eq_div_pow, Nat.shiftLeft_eq]
  set N := packNat xs bpe with hN
  set li := i * bpe / 64 with hli
  set sb := i * bpe % 64 with hsb
  have hdd : N / 2 ^ (64 * li) / 2 ^ sb = N / 2 ^ (i * bpe) := by
    rw [Nat.div_div_eq_div_mul, ← Nat.pow_add, hidx]
  have hv : N / 2 ^ (64 * li) % 2 ^ 64 / 2 ^ sb % 2 ^ bpe
      = N / 2 ^ (i * bpe) % 2 ^ (64 - sb) % 2 ^ bpe := by
    rw [mod_two_pow_div _ 64 sb (le_of_lt hsb64), hdd]
  by_cases hcase : 64 < sb + bpe
  · rw [if_pos hcase, hv]
    set M := N / 2 ^ (i * bpe) with hM
    have hle : 64 - sb ≤ bpe := by omega
    have hlow : M % 2 ^ (64 - sb) % 2 ^ bpe = M % 2 ^ (64 - sb) :=
      Nat.mod_eq_of_lt (lt_of_lt_of_le (Nat.mod_lt _ (Nat.two_pow_pos _))
        (Nat.pow_le_pow_right (by omega) hle))
    rw [hlow]
    have hdvd1 : (2 : Nat) ^ (sb + bpe - 64) ∣ 2 ^ 64 := pow_dvd_pow 2 (by omega)
    have hnext : N / 2 ^ (64 * (li + 1)) % 2 ^ 64 % 2 ^ (sb + bpe - 64)
        = M / 2 ^ (64 - sb) % 2 ^ (sb + bpe - 64) := by
      have he : i * bpe + (64 - sb) = 64 * (li + 1) := by omega
      rw [Nat.mod_mod_of_dvd _ hdvd1, hM,
        Nat.div_div_eq_div_mul, ← Nat.pow_add, he]
    rw [hnext]
    set T := M / 2 ^ (64 - sb) % 2 ^ (sb + bpe - 64) with hT
    have hTlt : T * 2 ^ (64 - sb) < 2 ^ bpe := by
      have h1 : T < 2 ^ (sb + bpe - 64) := Nat.mod_lt _ (Nat.two_pow_pos _)
      calc T * 2 ^ (64 - sb) < 2 ^ (sb + bpe - 64) * 2 ^ (64 - sb) :=
            (Nat.mul_lt_mul_right (Nat.two_pow_pos _)).mpr h1
        _ = 2 ^ (sb + bpe - 64 + (64 - sb)) := by rw [Nat.pow_add]
        _ = 2 ^ bpe := by congr 1; omega
    rw [Nat.mod_eq_of_lt hTlt]
    have hMlt : M % 2 ^ (64 - sb) < 2 ^ (64 - sb) := Nat.mod_lt _ (Nat.two_pow_pos _)
    have hfin : M % 2 ^ (64 - sb) + 2 ^ (64 - sb) * T = M % 2 ^ bpe := by
      have he2 : 64 - sb + (sb + bpe - 64) = bpe := by omega
      rw [hT, ← Nat.mod_mul, ← Nat.pow_add, he2]
    rw [Nat.mul_comm T (2 ^ (64 - sb)), Nat.lor_comm, ← Nat.mul_add_lt_is_or hMlt,
      Nat.add_comm]
    exact hfin
  · rw [if_neg hcase, hv]
    have hdvd2 : (2 : Nat) ^ bpe ∣ 2 ^ (64 - sb) := pow_dvd_pow 2 (by omega)
    exact Nat.mod_mod_of_dvd _ hdvd2

/-- C5: for every bits-per-entry bpe in 4..12 and every sequence xs of
values below 2^bpe, decoding the packed long array produced by the
reference straddling encoder recovers xs exactly, entries straddling
adjacent unsigned 64-bit longs included. -/
theorem decodePacked_roundtrip (xs : List Nat) (bpe : Nat)
    (h4 : 4 ≤ bpe) (h12 : bpe ≤ 12) (h : ∀ x ∈ xs, x < 2 ^ bpe) :
    decodePackedBlockStates (encodePacked xs bpe) xs.length bpe = xs := by
  apply List.ext_getElem
  · simp [decodePackedBlockStates]
  · intro i h1 h2
    simp only [decodePackedBlockStates, List.getElem_map, List.getElem_range]
    rw [decodeEntry_encodePacked xs bpe (by omega) (by omega) h i]
    rw [packNat_extract xs bpe h i h2]
    exact List.getD_eq_getElem xs 0 h2

/-- Concrete input for the C5 witness: thirteen 5-bit values, 65 bits total,
so the last entry straddles the two 64-bit longs. -/
def c5xs : List Nat := [1, 2, 3, 4, 5, 6, 7, 8, 9, 10, 11, 31, 17]

theorem decodePacked_roundtrip_witness :
    decodePackedBlockStates (encodePacked c5xs 5) c5xs.length 5 = c5xs :=
  decodePacked_roundtrip c5xs 5 (by decide) (by decide) (by decide)

end SchemPack

/-! ### Coordinate order helpers (coordsXZY / indexXZY, commands.mjs lines 162-168)

coordsXZY returns x = i % w, z = floor(i/w) % l, y = floor(i/(w*l)); we
split it into three projections.  indexXZY(x,y,z,w,h,l) = x + z*w + y*w*l
(h is unused by the source as well). -/

def xOf (i w : Nat) : Nat := i % w
def zOf (i w l : Nat) : Nat := i / w % l
def yOf (i w l : Nat) : Nat := i / (w * l)

def indexXZY (x y z w l : Nat) : Nat := x + z * w + y * (w * l)

theorem indexXZY_coords (i w l : Nat) :
    indexXZY (xOf i w) (yOf i w l) (zOf i w l) w l = i := by
  unfold indexXZY xOf yOf zOf
  rw [← Nat.div_div_eq_div_mul]
  have h1 : i / w % l * w + i / w / l * (w * l) = i / w * w := by
    have := Nat.mod_add_div (i / w) l
    calc i / w % l * w + i / w / l * (w * l)
        = (i / w % l + l * (i / w / l)) * w := by ring
      _ = i / w * w := by rw [this]
  rw [Nat.add_assoc, h1, Nat.mod_add_div' i w]

theorem coords_indexXZY (x y z w l : Nat) (hx : x < w) (hz : z < l) :
    xOf (indexXZY x y z w l) w = x ∧ yOf (indexXZY x y z w l) w l = y ∧
      zOf (indexXZY x y z w l) w l = z := by
  have hw : 0 < w := by omega
  have hl : 0 < l := by omega
  unfold indexXZY xOf yOf zOf
  have hrw : x + z * w + y * (w * l) = x + (z + y * l) * w := by ring
  refine ⟨?_, ?_, ?_⟩
  · rw [hrw, Nat.add_mul_mod_self_right, Nat.mod_eq_of_lt hx]
  · have hsmall : x + z * w < w * l := by
      calc x + z * w < w + z * w := by omega
        _ = (z + 1) * w := by ring
        _ ≤ l * w := Nat.mul_le_mul_right _ (by omega)
        _ = w * l := Nat.mul_comm _ _
    have : (x + z * w + y * (w * l)) / (w * l) = y := by
      rw [Nat.add_mul_div_right _ _ (by positivity), Nat.div_eq_of_lt hsmall, Nat.zero_add]
    exact this
  · have : (x + (z + y * l) * w) / w = z + y * l := by
      rw [Nat.add_mul_div_right _ _ hw, Nat.div_eq_of_lt hx, Nat.zero_add]
    rw [hrw, this, Nat.add_mul_mod_self_right, Nat.mod_eq_of_lt hz]

theorem indexXZY_lt (x y z w l h : Nat) (hx : x < w) (hy : y < h) (hz : z < l) :
    indexXZY x y z w l < w * h * l := by
  obtain ⟨lp, rfl⟩ : ∃ lp, l = lp + 1 := ⟨l - 1, by omega⟩
  obtain ⟨hp, rfl⟩ : ∃ hp, h = hp + 1 := ⟨h - 1, by omega⟩
  unfold indexXZY
  have h1 : z * w ≤ lp * w := Nat.mul_le_mul_right _ (by omega)
  have h2 : y * (w * (lp + 1)) ≤ hp * (w * (lp + 1)) := Nat.mul_le_mul_right _ (by omega)
  have hgoal : w * (hp + 1) * (lp + 1) = w + lp * w + hp * (w * (lp + 1)) := by ring
  omega

theorem indexXZY_mono {x0 y0 z0 x y z w l : Nat}
    (hx : x0 ≤ x) (hy : y0 ≤ y) (hz : z0 ≤ z) :
    indexXZY x0 y0 z0 w l ≤ indexXZY x y z w l := by
  unfold indexXZY
  have h1 : z0 * w ≤ z * w := Nat.mul_le_mul_right _ hz
  have h2 : y0 * (w * l) ≤ y * (w * l) := Nat.mul_le_mul_right _ hy
  omega

/-! ### Greedy merger (dumpSetblockCommands main loop, commands.mjs lines 563-623)

The memoised getter makeMergeKeyGetter returns, for each cell index, either
null or a sanitised bedrock key; within one dump run the memo makes it a
function of the cell index, so the merger is modelled over an arbitrary
key function.  JavaScript truthiness makes both null and the empty string
skip a cell; keyTruthy captures that. -/

def keyTruthy : Option String → Bool
  | none => false
  | some s => !(s == "")

/-- sameKey (lines 567-571): k0 = getKeyAt(i0); if falsy, false; else
compare with getKeyAt(i1). -/
def sameKey (key : Nat → Option String) (i j : Nat) : Bool :=
  match key i with
  | none => false
  | some k0 => if k0 == "" then false else key j == some k0

/-- A cell qualifies for expansion when it is unvisited and has the same key
as the seed cell (the negation of the break condition at lines 584/591/600). -/
def cellFree (key : Nat → Option String) (visited : Nat → Bool) (i j : Nat) : Bool :=
  !visited j && sameKey key i j

/-- Bounded iteration helper: allFromTo f a n checks f on a, a+1, ..., a+n-1,
stopping at the first failure (models the inner row/slab check loops). -/
def allFromTo (f : Nat → Bool) (a : Nat) : Nat → Bool
  | 0 => true
  | n + 1 => f a && allFromTo f (a + 1) n

structure Box where
  x0 : Nat
  y0 : Nat
  z0 : Nat
  x1 : Nat
  y1 : Nat
  z1 : Nat

def Box.memP (b : Box) (x y z : Nat) : Prop :=
  b.x0 ≤ x ∧ x ≤ b.x1 ∧ b.y0 ≤ y ∧ y ≤ b.y1 ∧ b.z0 ≤ z ∧ z ≤ b.z1

instance (b : Box) (x y z : Nat) : Decidable (b.memP x y z) := by
  unfold Box.memP; infer_instance

/-- (x2-x1+1)*(y2-y1+1)*(z2-z1+1) of the claim, in Nat arithmetic. -/
def Box.vol (b : Box) : Nat :=
  (b.x1 + 1 - b.x0) * ((b.y1 + 1 - b.y0) * (b.z1 + 1 - b.z0))

/-- Expand along +X (lines 582-586). -/
def expandX (key : Nat → Option String) (visited : Nat → Bool)
    (w l y0 z0 i : Nat) : Nat → Nat → Nat
  | 0, x1 => x1
  | fuel + 1, x1 =>
    if x1 + 1 < w ∧ cellFree key visited i (indexXZY (x1 + 1) y0 z0 w l) = true then
      expandX key visited w l y0 z0 i fuel (x1 + 1)
    else x1

/-- One candidate row for +Z expansion (lines 589-592). -/
def rowFree (key : Nat → Option String) (visited : Nat → Bool)
    (w l x0 x1 y0 i z : Nat) : Bool :=
  allFromTo (fun xi => cellFree key visited i (indexXZY xi y0 z w l)) x0 (x1 + 1 - x0)

/-- Expand along +Z (lines 588-594). -/
def expandZ (key : Nat → Option String) (visited : Nat → Bool)
    (w l x0 x1 y0 i : Nat) : Nat → Nat → Nat
  | 0, z1 => z1
  | fuel + 1, z1 =>
    if z1 + 1 < l ∧ rowFree key visited w l x0 x1 y0 i (z1 + 1) = true then
      expandZ key visited w l x0 x1 y0 i fuel (z1 + 1)
    else z1

/-- One candidate slab for +Y expansion (lines 597-602). -/
def slabFree (key : Nat → Option String) (visited : Nat → Bool)
    (w l x0 x1 z0 z1 i y : Nat) : Bool :=
  allFromTo (fun zi =>
    allFromTo (fun xi => cellFree key visited i (indexXZY xi y zi w l)) x0 (x1 + 1 - x0))
    z0 (z1 + 1 - z0)

/-- Expand along +Y (lines 596-604). -/
def expandY (key : Nat → Option String) (visited : Nat → Bool)
    (w h l x0 x1 z0 z1 i : Nat) : Nat → Nat → Nat
  | 0, y1 => y1
  | fuel + 1, y1 =>
    if y1 + 1 < h ∧ slabFree key visited w l x0 x1 z0 z1 i (y1 + 1) = true then
      expandY key visited w h l x0 x1 z0 z1 i fuel (y1 + 1)
    else y1

/-- Grow the maximal box from seed cell i (lines 578-604). -/
def growBox (key : Nat → Option String) (visited : Nat → Bool)
    (w h l i : Nat) : Box :=
  let x0 := xOf i w
  let y0 := yOf i w l
  let z0 := zOf i w l
  let x1 := expandX key visited w l y0 z0 i w x0
  let z1 := expandZ key visited w l x0 x1 y0 i l z0
  let y1 := expandY key visited w h l x0 x1 z0 z1 i h y0
  ⟨x0, y0, z0, x1, y1, z1⟩

/-- visited[i] = 1 for a skipped null cell (line 576). -/
def markOne (visited : Nat → Bool) (i : Nat) : Nat → Bool :=
  fun j => visited j || j == i

/-- Mark every cell of the box visited (lines 607-611); for an in-bounds box
the marked index set is exactly the set of indices whose coordinates lie in
the box. -/
def markBox (visited : Nat → Bool) (w l : Nat) (b : Box) : Nat → Bool :=
  fun j => visited j || decide (b.memP (xOf j w) (yOf j w l) (zOf j w l))

/-- The scan loop of dumpSetblockCommands (lines 573-623), returning the
boxes in emission order. -/
def mergeRun (key : Nat → Option String) (w h l : Nat) :
    Nat → Nat → (Nat → Bool) → List Box
  | 0, _, _ => []
  | fuel + 1, i, visited =>
    if visited i then mergeRun key w h l fuel (i + 1) visited
    else if keyTruthy (key i) then
      let b := growBox key visited w h l i
      b :: mergeRun key w h l fuel (i + 1) (markBox visited w l b)
    else
      mergeRun key w h l fuel (i + 1) (markOne visited i)

def mergeBoxes (key : Nat → Option String) (w h l : Nat) : List Box :=
  mergeRun key w h l (w * h * l) 0 (fun _ => false)

def sumVol (boxes : List Box) : Nat := (boxes.map Box.vol).sum

theorem allFromTo_eq_true_iff (f : Nat → Bool) :
    ∀ n a, allFromTo f a n = true ↔ ∀ t, t < n → f (a + t) = true := by
  intro n
  induction n with
  | zero => intro a; simp [allFromTo]
  | succ m ih =>
    intro a
    simp only [allFromTo, Bool.and_eq_true, ih (a + 1)]
    constructor
    · rintro ⟨hfa, hrest⟩ t ht
      cases t with
      | zero => simpa using hfa
      | succ u =>
        have := hrest u (by omega)
        have harr : a + 1 + u = a + (u + 1) := by omega
        rwa [harr] at this
    · intro hall
      refine ⟨by simpa using hall 0 (by omega), fun u hu => ?_⟩
      have := hall (u + 1) (by omega)
      have harr : a + (u + 1) = a + 1 + u := by omega
      rwa [harr] at this

theorem cellFree_iff (key : Nat → Option String) (visited : Nat → Bool)
    (i j : Nat) (k0 : String) (hk : key i = some k0) (hk0 : k0 ≠ "") :
    cellFree key visited i j = true ↔ (visited j = false ∧ key j = some k0) := by
  unfold cellFree sameKey
  rw [hk]
  have hbe : (k0 == "") = false := by
    simpa using hk0
  simp [hbe, Bool.and_eq_true, beq_iff_eq, Bool.not_eq_true']

theorem expandX_spec (key : Nat → Option String) (visited : Nat → Bool)
    (w l y0 z0 i x0 : Nat) :
    ∀ fuel x1, x0 ≤ x1 → x1 < w →
      (∀ xi, x0 ≤ xi → xi ≤ x1 → cellFree key visited i (indexXZY xi y0 z0 w l) = true) →
      x0 ≤ expandX key visited w l y0 z0 i fuel x1 ∧
        expandX key visited w l y0 z0 i fuel x1 < w ∧
        ∀ xi, x0 ≤ xi → xi ≤ expandX key visited w l y0 z0 i fuel x1 →
          cellFree key visited i (indexXZY xi y0 z0 w l) = true := by
  intro fuel
  induction fuel with
  | zero => intro x1 h1 h2 h3; exact ⟨h1, h2, h3⟩
  | succ m ih =>
    intro x1 h1 h2 h3
    unfold expandX
    split
    · next hcond =>
      exact ih (x1 + 1) (by omega) hcond.1 (fun xi hx1 hx2 => by
        rcases Nat.lt_or_ge xi (x1 + 1) with hlt | hge
        · exact h3 xi hx1 (by omega)
        · have : xi = x1 + 1 := by omega
          rw [this]; exact hcond.2)
    · exact ⟨h1, h2, h3⟩

theorem expandZ_spec (key : Nat → Option String) (visited : Nat → Bool)
    (w l x0 x1 y0 i zlo : Nat) :
    ∀ fuel z1, zlo ≤ z1 → z1 < l →
      (∀ xi zi, x0 ≤ xi → xi ≤ x1 → zlo ≤ zi → zi ≤ z1 →
        cellFree key visited i (indexXZY xi y0 zi w l) = true) →
      zlo ≤ expandZ key visited w l x0 x1 y0 i fuel z1 ∧
        expandZ key visited w l x0 x1 y0 i fuel z1 < l ∧
        ∀ xi zi, x0 ≤ xi → xi ≤ x1 → zlo ≤ zi →
          zi ≤ expandZ key visited w l x0 x1 y0 i fuel z1 →
          cellFree key visited i (indexXZY xi y0 zi w l) = true := by
  intro fuel
  induction fuel with
  | zero => intro z1 h1 h2 h3; exact ⟨h1, h2, h3⟩
  | succ m ih =>
    intro z1 h1 h2 h3
    unfold expandZ
    split
    · next hcond =>
      refine ih (z1 + 1) (by omega) hcond.1 ?_
      intro xi zi hx1 hx2 hz1 hz2
      rcases Nat.lt_or_ge zi (z1 + 1) with hlt | hge
      · exact h3 xi zi hx1 hx2 hz1 (by omega)
      · have hzi : zi = z1 + 1 := by omega
        have hrow := (allFromTo_eq_true_iff _ _ _).mp hcond.2
        have := hrow (xi - x0) (by omega)
        have harr : x0 + (xi - x0) = xi := by omega
        rw [harr] at this
        rw [hzi]
        exact this
    · exact ⟨h1, h2, h3⟩

theorem expandY_spec (key : Nat → Option String) (visited : Nat → Bool)
    (w h l x0 x1 z0 z1 i ylo : Nat) :
    ∀ fuel y1, ylo ≤ y1 → y1 < h →
      (∀ xi yi zi, x0 ≤ xi → xi ≤ x1 → ylo ≤ yi → yi ≤ y1 → z0 ≤ zi → zi ≤ z1 →
        cellFree key visited i (indexXZY xi yi zi w l) = true) →
      ylo ≤ expandY key visited w h l x0 x1 z0 z1 i fuel y1 ∧
        expandY key visited w h l x0 x1 z0 z1 i fuel y1 < h ∧
        ∀ xi yi zi, x0 ≤ xi → xi ≤ x1 → ylo ≤ yi →
          yi ≤ expandY key visited w h l x0 x1 z0 z1 i fuel y1 →
          z0 ≤ zi → zi ≤ z1 →
          cellFree key visited i (indexXZY xi yi zi w l) = true := by
  intro fuel
  induction fuel with
  | zero => intro y1 h1 h2 h3; exact ⟨h1, h2, h3⟩
  | succ m ih =>
    intro y1 h1 h2 h3
    unfold expandY
    split
    · next hcond =>
      refine ih (y1 + 1) (by omega) hcond.1 ?_
      intro xi yi zi hx1 hx2 hy1 hy2 hz1 hz2
      rcases Nat.lt_or_ge yi (y1 + 1) with hlt | hge
      · exact h3 xi yi zi hx1 hx2 hy1 (by omega) hz1 hz2
      · have hyi : yi = y1 + 1 := by omega
        have hslab := (allFromTo_eq_true_iff _ _ _).mp hcond.2
        have hrow := hslab (zi - z0) (by omega)
        have harrz : z0 + (zi - z0) = zi := by omega
        rw [harrz] at hrow
        have hcell := (allFromTo_eq_true_iff _ _ _).mp hrow (xi - x0) (by omega)
        have harrx : x0 + (xi - x0) = xi := by omega
        rw [harrx] at hcell
        rw [hyi]
        exact hcell
    · exact ⟨h1, h2, h3⟩

theorem growBox_spec (key : Nat → Option String) (visited : Nat → Bool)
    (w h l i : Nat) (k0 : String)
    (hi : i < w * h * l) (hvis : visited i = false)
    (hk : key i = some k0) (hk0 : k0 ≠ "") (b : Box)
    (hb : b = growBox key visited w h l i) :
    b.x0 = xOf i w ∧ b.y0 = yOf i w l ∧ b.z0 = zOf i w l ∧
      b.x0 ≤ b.x1 ∧ b.x1 < w ∧ b.y0 ≤ b.y1 ∧ b.y1 < h ∧ b.z0 ≤ b.z1 ∧ b.z1 < l ∧
      ∀ x y z, b.memP x y z →
        visited (indexXZY x y z w l) = false ∧ key (indexXZY x y z w l) = some k0 := by
  have hvolpos : 0 < w * h * l := by omega
  have hw : 0 < w := by
    by_contra hc
    push_neg at hc
    have hz : w = 0 := by omega
    rw [hz] at hvolpos
    simp at hvolpos
  have hh : 0 < h := by
    by_contra hc
    push_neg at hc
    have hz : h = 0 := by omega
    rw [hz] at hvolpos
    simp at hvolpos
  have hl : 0 < l := by
    by_contra hc
    push_neg at hc
    have hz : l = 0 := by omega
    rw [hz] at hvolpos
    simp at hvolpos
  have hx0 : xOf i w < w := Nat.mod_lt _ hw
  have hz0 : zOf i w l < l := Nat.mod_lt _ hl
  have hy0 : yOf i w l < h := by
    unfold yOf
    rw [Nat.div_lt_iff_lt_mul (by positivity)]
    calc i < w * h * l := hi
      _ = h * (w * l) := by ring
  have hbase : cellFree key visited i (indexXZY (xOf i w) (yOf i w l) (zOf i w l) w l)
      = true := by
    rw [indexXZY_coords]
    exact (cellFree_iff key visited i i k0 hk hk0).mpr ⟨hvis, hk⟩
  have hX := expandX_spec key visited w l (yOf i w l) (zOf i w l) i (xOf i w)
    w (xOf i w) (le_refl _) hx0
    (fun xi h1 h2 => by
      have : xi = xOf i w := by omega
      rw [this]; exact hbase)
  set X1 := expandX key visited w l (yOf i w l) (zOf i w l) i w (xOf i w) with hX1
  have hZ := expandZ_spec key visited w l (xOf i w) X1 (yOf i w l) i
    (zOf i w l) l (zOf i w l) (le_refl _) hz0
    (fun xi zi h1 h2 h3 h4 => by
      have : zi = zOf i w l := by omega
      rw [this]; exact hX.2.2 xi h1 h2)
  set Z1 := expandZ key visited w l (xOf i w) X1 (yOf i w l) i l (zOf i w l) with hZ1
  have hY := expandY_spec key visited w h l (xOf i w) X1 (zOf i w l) Z1 i
    (yOf i w l) h (yOf i w l) (le_refl _) hy0
    (fun xi yi zi h1 h2 h3 h4 h5 h6 => by
      have : yi = yOf i w l := by omega
      rw [this]; exact hZ.2.2 xi zi h1 h2 h5 h6)
  set Y1 := expandY key visited w h l (xOf i w) X1 (zOf i w l) Z1 i h (yOf i w l) with hY1
  have hbdef : b = ⟨xOf i w, yOf i w l, zOf i w l, X1, Y1, Z1⟩ := by
    rw [hb]; rfl
  subst hbdef
  refine ⟨rfl, rfl, rfl, hX.1, hX.2.1, hY.1, hY.2.1, hZ.1, hZ.2.1, ?_⟩
  intro x y z hmem
  obtain ⟨m1, m2, m3, m4, m5, m6⟩ := hmem
  have := hY.2.2 x y z m1 m2 m3 m4 m5 m6
  have hcf := (cellFree_iff key visited i (indexXZY x y z w l) k0 hk hk0).mp this
  exact hcf

theorem keyTruthy_iff (k : Option String) :
    keyTruthy k = true ↔ ∃ s, k = some s ∧ s ≠ "" := by
  cases k with
  | none => simp [keyTruthy]
  | some s => simp [keyTruthy]

theorem Ico_insert_left {i n : Nat} (h : i < n) :
    Finset.Ico i n = insert i (Finset.Ico (i + 1) n) := by
  ext j
  simp only [Finset.mem_Ico, Finset.mem_insert]
  omega

/-- The indices inside an in-bounds box, restricted to the scan tail, number
exactly the box volume. -/
theorem box_card (w h l i : Nat) (b : Box)
    (hbx0 : b.x0 = xOf i w) (hby0 : b.y0 = yOf i w l) (hbz0 : b.z0 = zOf i w l)
    (h1 : b.x0 ≤ b.x1) (h2 : b.x1 < w) (h3 : b.y0 ≤ b.y1) (h4 : b.y1 < h)
    (h5 : b.z0 ≤ b.z1) (h6 : b.z1 < l) (hi : i < w * h * l) :
    ((Finset.Ico i (w * h * l)).filter
        (fun j => b.memP (xOf j w) (yOf j w l) (zOf j w l))).card = b.vol := by
  have hid : i = indexXZY b.x0 b.y0 b.z0 w l := by
    rw [hbx0, hby0, hbz0, indexXZY_coords]
  have himg : (Finset.Ico i (w * h * l)).filter
      (fun j => b.memP (xOf j w) (yOf j w l) (zOf j w l))
      = ((Finset.Icc b.x0 b.x1) ×ˢ (Finset.Icc b.y0 b.y1) ×ˢ (Finset.Icc b.z0 b.z1)).image
          (fun t => indexXZY t.1 t.2.1 t.2.2 w l) := by
    ext j
    simp only [Finset.mem_filter, Finset.mem_Ico, Finset.mem_image]
    constructor
    · rintro ⟨⟨hij, hjn⟩, hmem⟩
      obtain ⟨m1, m2, m3, m4, m5, m6⟩ := hmem
      refine ⟨(xOf j w, yOf j w l, zOf j w l), ?_, indexXZY_coords j w l⟩
      simp only [Finset.mem_product, Finset.mem_Icc]
      exact ⟨⟨m1, m2⟩, ⟨m3, m4⟩, ⟨m5, m6⟩⟩
    · rintro ⟨t, hmem, hje⟩
      obtain ⟨x, y, z⟩ := t
      simp only [Finset.mem_product, Finset.mem_Icc] at hmem
      obtain ⟨⟨hx1, hx2⟩, ⟨hy1, hy2⟩, ⟨hz1, hz2⟩⟩ := hmem
      have hxw : x < w := by omega
      have hyh : y < h := by omega
      have hzl : z < l := by omega
      obtain ⟨c1, c2, c3⟩ := coords_indexXZY x y z w l hxw hzl
      subst hje
      refine ⟨⟨?_, indexXZY_lt x y z w l h hxw hyh hzl⟩, ?_⟩
      · rw [hid]
        exact indexXZY_mono hx1 hy1 hz1
      · unfold Box.memP
        rw [c1, c2, c3]
        omega
  rw [himg]
  rw [Finset.card_image_of_injOn]
  · rw [Finset.card_product, Finset.card_product, Nat.card_Icc, Nat.card_Icc, Nat.card_Icc]
    rfl
  · rintro ⟨x, y, z⟩ hmem ⟨x', y', z'⟩ hmem' heq
    simp only [Finset.mem_product, Finset.mem_Icc, Finset.mem_coe] at hmem hmem'
    obtain ⟨⟨hx1, hx2⟩, ⟨hy1, hy2⟩, ⟨hz1, hz2⟩⟩ := hmem
    obtain ⟨⟨hx1', hx2'⟩, ⟨hy1', hy2'⟩, ⟨hz1', hz2'⟩⟩ := hmem'
    obtain ⟨c1, c2, c3⟩ := coords_indexXZY x y z w l (by omega) (by omega)
    obtain ⟨c1', c2', c3'⟩ := coords_indexXZY x' y' z' w l (by omega) (by omega)
    have heq2 : indexXZY x y z w l = indexXZY x' y' z' w l := heq
    have hx : x = x' := by rw [← c1, ← c1', heq2]
    have hy : y = y' := by rw [← c2, ← c2', heq2]
    have hz : z = z' := by rw [← c3, ← c3', heq2]
    simp [hx, hy, hz]

theorem mergeRun_sum (key : Nat → Option String) (w h l : Nat) :
    ∀ fuel i visited, i + fuel = w * h * l →
      sumVol (mergeRun key w h l fuel i visited)
        = ((Finset.Ico i (w * h * l)).filter
            (fun j => visited j = false ∧ keyTruthy (key j) = true)).card := by
  intro fuel
  induction fuel with
  | zero =>
    intro i visited hiv
    have : i = w * h * l := by omega
    subst this
    simp [mergeRun, sumVol]
  | succ m ih =>
    intro i visited hiv
    have hin : i < w * h * l := by omega
    rw [Ico_insert_left hin, Finset.filter_insert]
    by_cases hvis : visited i = true
    · rw [if_neg (by simp [hvis])]
      have heq : mergeRun key w h l (m + 1) i visited
          = mergeRun key w h l m (i + 1) visited := by
        simp [mergeRun, hvis]
      rw [heq, ih (i + 1) visited (by omega)]
    · have hvf : visited i = false := by simpa using hvis
      by_cases htr : keyTruthy (key i) = true
      · -- emit a box
        obtain ⟨k0, hk, hk0⟩ := (keyTruthy_iff (key i)).mp htr
        set b := growBox key visited w h l i with hbdef
        obtain ⟨gx0, gy0, gz0, g1, g2, g3, g4, g5, g6, gcell⟩ :=
          growBox_spec key visited w h l i k0 hin hvf hk hk0 b hbdef
        have heq : mergeRun key w h l (m + 1) i visited
            = b :: mergeRun key w h l m (i + 1) (markBox visited w l b) := by
          simp [mergeRun, hvf, htr, hbdef]
        rw [if_pos ⟨hvf, htr⟩, heq]
        have hsum : sumVol (b :: mergeRun key w h l m (i + 1) (markBox visited w l b))
            = b.vol + sumVol (mergeRun key w h l m (i + 1) (markBox visited w l b)) := by
          simp [sumVol]
        rw [hsum, ih (i + 1) _ (by omega)]
        -- set abbreviations
        have hQP : ∀ j, b.memP (xOf j w) (yOf j w l) (zOf j w l) →
            visited j = false ∧ keyTruthy (key j) = true := by
          intro j hq
          have := gcell _ _ _ hq
          rw [indexXZY_coords] at this
          refine ⟨this.1, ?_⟩
          rw [this.2]
          simp [keyTruthy, hk0]
        -- the filter with markBox splits off the box cells
        have hsplit : (Finset.Ico (i + 1) (w * h * l)).filter
              (fun j => markBox visited w l b j = false ∧ keyTruthy (key j) = true)
            = ((Finset.Ico (i + 1) (w * h * l)).filter
                (fun j => visited j = false ∧ keyTruthy (key j) = true)).filter
                (fun j => ¬ b.memP (xOf j w) (yOf j w l) (zOf j w l)) := by
          ext j
          simp only [Finset.mem_filter, markBox, Bool.or_eq_false_iff,
            decide_eq_false_iff_not]
          tauto
        rw [hsplit]
        set S := (Finset.Ico (i + 1) (w * h * l)).filter
            (fun j => visited j = false ∧ keyTruthy (key j) = true) with hS
        have hcardsplit :
            (S.filter (fun j => ¬ b.memP (xOf j w) (yOf j w l) (zOf j w l))).card
              + (S.filter (fun j => b.memP (xOf j w) (yOf j w l) (zOf j w l))).card
            = S.card := by
          rw [Nat.add_comm]
          exact Finset.filter_card_add_filter_neg_card_eq_card _
        have hSQ : S.filter (fun j => b.memP (xOf j w) (yOf j w l) (zOf j w l))
            = (Finset.Ico (i + 1) (w * h * l)).filter
                (fun j => b.memP (xOf j w) (yOf j w l) (zOf j w l)) := by
          rw [hS, Finset.filter_filter]
          apply Finset.filter_congr
          intro j hj
          constructor
          · rintro ⟨hp, hq⟩; exact hq
          · intro hq; exact ⟨hQP j hq, hq⟩
        have hboxmemi : b.memP (xOf i w) (yOf i w l) (zOf i w l) := by
          refine ⟨?_, ?_, ?_, ?_, ?_, ?_⟩ <;> omega
        have hboxcard := box_card w h l i b gx0 gy0 gz0 g1 g2 g3 g4 g5 g6 hin
        have hinsert : (Finset.Ico i (w * h * l)).filter
              (fun j => b.memP (xOf j w) (yOf j w l) (zOf j w l))
            = insert i ((Finset.Ico (i + 1) (w * h * l)).filter
                (fun j => b.memP (xOf j w) (yOf j w l) (zOf j w l))) := by
          rw [Ico_insert_left hin, Finset.filter_insert, if_pos hboxmemi]
        have hnotmem : i ∉ (Finset.Ico (i + 1) (w * h * l)).filter
            (fun j => b.memP (xOf j w) (yOf j w l) (zOf j w l)) := by
          simp [Finset.mem_filter, Finset.mem_Ico]
        have hcard2 : ((Finset.Ico (i + 1) (w * h * l)).filter
            (fun j => b.memP (xOf j w) (yOf j w l) (zOf j w l))).card = b.vol - 1 := by
          have := hboxcard
          rw [hinsert, Finset.card_insert_of_not_mem hnotmem] at this
          omega
        have hvolpos : 1 ≤ b.vol := by
          unfold Box.vol
          have e1 : 1 ≤ b.x1 + 1 - b.x0 := by omega
          have e2 : 1 ≤ b.y1 + 1 - b.y0 := by omega
          have e3 : 1 ≤ b.z1 + 1 - b.z0 := by omega
          calc 1 = 1 * (1 * 1) := by ring
            _ ≤ (b.x1 + 1 - b.x0) * ((b.y1 + 1 - b.y0) * (b.z1 + 1 - b.z0)) :=
                Nat.mul_le_mul e1 (Nat.mul_le_mul e2 e3)
        have hsub : ((Finset.Ico (i + 1) (w * h * l)).filter
            (fun j => b.memP (xOf j w) (yOf j w l) (zOf j w l))).card ≤ S.card := by
          rw [← hSQ]
          exact Finset.card_filter_le _ _
        have hiS : i ∉ S := by
          rw [hS]
          simp [Finset.mem_filter, Finset.mem_Ico]
        rw [Finset.card_insert_of_not_mem hiS]
        rw [hSQ] at hcardsplit
        omega
      · -- null cell: mark i visited and continue
        have htrf : keyTruthy (key i) = false := by simpa using htr
        rw [if_neg (by simp [htrf])]
        have heq : mergeRun key w h l (m + 1) i visited
            = mergeRun key w h l m (i + 1) (markOne visited i) := by
          simp [mergeRun, hvf, htrf]
        rw [heq, ih (i + 1) _ (by omega)]
        congr 1
        apply Finset.filter_congr
        intro j hj
        simp only [Finset.mem_Ico] at hj
        have : markOne visited i j = visited j := by
          unfold markOne
          have : (j == i) = false := by
            simp only [beq_eq_false_iff_ne]
            omega
          simp [this]
        rw [this]

/-- C1: Volume conservation.  For every volume dimensions and per-cell
translated key (no cell translating to the empty string, which the
translator never produces for a valid descriptor), the sum over all boxes
emitted by the greedy merger of (x2-x1+1)*(y2-y1+1)*(z2-z1+1) plus the
number of cells whose translated key is null equals W*H*L. -/
theorem volume_conservation (key : Nat → Option String) (w h l : Nat)
    (hk : ∀ i, i < w * h * l → key i ≠ some ("")) :
    sumVol (mergeBoxes key w h l)
      + ((Finset.range (w * h * l)).filter (fun i => key i = none)).card
      = w * h * l := by
  unfold mergeBoxes
  rw [mergeRun_sum key w h l (w * h * l) 0 (fun _ => false) (by omega)]
  rw [Finset.range_eq_Ico]
  have hcongr : (Finset.Ico 0 (w * h * l)).filter
        (fun j => (fun _ : Nat => false) j = false ∧ keyTruthy (key j) = true)
      = (Finset.Ico 0 (w * h * l)).filter (fun j => ¬ (key j = none)) := by
    apply Finset.filter_congr
    intro j hj
    simp only [Finset.mem_Ico] at hj
    cases hkey : key j with
    | none => simp [keyTruthy]
    | some s =>
      have hs : s ≠ "" := by
        intro hcontra
        exact hk j (by omega) (by rw [hkey, hcontra])
      simp [keyTruthy, hs]
  rw [hcongr]
  have := Finset.filter_card_add_filter_neg_card_eq_card
    (s := Finset.Ico 0 (w * h * l)) (p := fun j => key j = none)
  have hcard : (Finset.Ico 0 (w * h * l)).card = w * h * l := by
    simp
  omega

theorem volume_conservation_witness :
    sumVol (mergeBoxes (fun i => if i = 2 then none else some ("stone")) 2 2 2)
      + ((Finset.range 8).filter
          (fun i => (if i = 2 then none else some ("stone")) = none)).card
      = 8 :=
  volume_conservation (fun i => if i = 2 then none else some ("stone")) 2 2 2
    (by decide)

/-- Every box emitted from a state avoids the cells already visited in that
state, stays inside the volume bounds, and consists of cells sharing one
truthy key. -/
theorem mergeRun_boxes (key : Nat → Option String) (w h l : Nat) :
    ∀ fuel i visited, i + fuel = w * h * l →
      ∀ b ∈ mergeRun key w h l fuel i visited,
        (b.x1 < w ∧ b.y1 < h ∧ b.z1 < l) ∧
        ∃ k0, k0 ≠ "" ∧ ∀ x y z, b.memP x y z →
          visited (indexXZY x y z w l) = false ∧ key (indexXZY x y z w l) = some k0 := by
  intro fuel
  induction fuel with
  | zero => intro i visited hiv b hb; simp [mergeRun] at hb
  | succ m ih =>
    intro i visited hiv b hb
    have hin : i < w * h * l := by omega
    by_cases hvis : visited i = true
    · rw [show mergeRun key w h l (m + 1) i visited
          = mergeRun key w h l m (i + 1) visited by simp [mergeRun, hvis]] at hb
      exact ih (i + 1) visited (by omega) b hb
    · have hvf : visited i = false := by simpa using hvis
      by_cases htr : keyTruthy (key i) = true
      · obtain ⟨k0, hk, hk0⟩ := (keyTruthy_iff (key i)).mp htr
        rw [show mergeRun key w h l (m + 1) i visited
            = growBox key visited w h l i
                :: mergeRun key w h l m (i + 1)
                    (markBox visited w l (growBox key visited w h l i)) by
          simp [mergeRun, hvf, htr]] at hb
        obtain ⟨gx0, gy0, gz0, g1, g2, g3, g4, g5, g6, gcell⟩ :=
          growBox_spec key visited w h l i k0 hin hvf hk hk0
            (growBox key visited w h l i) rfl
        rcases List.mem_cons.mp hb with hhead | htail
        · subst hhead
          exact ⟨⟨g2, g4, g6⟩, k0, hk0, fun x y z hm => gcell x y z hm⟩
        · have := ih (i + 1) _ (by omega) b htail
          refine ⟨this.1, ?_⟩
          obtain ⟨k1, hk1, hcells⟩ := this.2
          refine ⟨k1, hk1, fun x y z hm => ?_⟩
          have hmb := hcells x y z hm
          have hmark := hmb.1
          unfold markBox at hmark
          rw [Bool.or_eq_false_iff] at hmark
          exact ⟨hmark.1, hmb.2⟩
      · have htrf : keyTruthy (key i) = false := by simpa using htr
        rw [show mergeRun key w h l (m + 1) i visited
            = mergeRun key w h l m (i + 1) (markOne visited i) by
          simp [mergeRun, hvf, htrf]] at hb
        have := ih (i + 1) _ (by omega) b hb
        refine ⟨this.1, ?_⟩
        obtain ⟨k1, hk1, hcells⟩ := this.2
        refine ⟨k1, hk1, fun x y z hm => ?_⟩
        have hmb := hcells x y z hm
        have hmark := hmb.1
        unfold markOne at hmark
        rw [Bool.or_eq_false_iff] at hmark
        exact ⟨hmark.1, hmb.2⟩

theorem mergeRun_disjoint (key : Nat → Option String) (w h l : Nat) :
    ∀ fuel i visited, i + fuel = w * h * l →
      (mergeRun key w h l fuel i visited).Pairwise
        (fun b1 b2 => ∀ x y z, ¬(b1.memP x y z ∧ b2.memP x y z)) := by
  intro fuel
  induction fuel with
  | zero => intro i visited hiv; simp [mergeRun]
  | succ m ih =>
    intro i visited hiv
    have hin : i < w * h * l := by omega
    by_cases hvis : visited i = true
    · rw [show mergeRun key w h l (m + 1) i visited
          = mergeRun key w h l m (i + 1) visited by simp [mergeRun, hvis]]
      exact ih (i + 1) visited (by omega)
    · have hvf : visited i = false := by simpa using hvis
      by_cases htr : keyTruthy (key i) = true
      · rw [show mergeRun key w h l (m + 1) i visited
            = growBox key visited w h l i
                :: mergeRun key w h l m (i + 1)
                    (markBox visited w l (growBox key visited w h l i)) by
          simp [mergeRun, hvf, htr]]
        set b := growBox key visited w h l i with hbdef
        refine List.Pairwise.cons ?_ (ih (i + 1) _ (by omega))
        intro b2 hb2 x y z hboth
        obtain ⟨hm1, hm2⟩ := hboth
        have hspec := mergeRun_boxes key w h l m (i + 1) _ (by omega) b2 hb2
        obtain ⟨⟨hbx, hby, hbz⟩, k1, hk1, hcells⟩ := hspec
        have hcell := hcells x y z hm2
        have hmark := hcell.1
        unfold markBox at hmark
        rw [Bool.or_eq_false_iff] at hmark
        have hdec := hmark.2
        rw [decide_eq_false_iff_not] at hdec
        apply hdec
        have hxw : x < w := by
          obtain ⟨_, m2', _, _, _, _⟩ := hm2
          omega
        have hzl : z < l := by
          obtain ⟨_, _, _, _, _, m6'⟩ := hm2
          omega
        obtain ⟨c1, c2, c3⟩ := coords_indexXZY x y z w l hxw hzl
        rw [c1, c2, c3]
        exact hm1
      · have htrf : keyTruthy (key i) = false := by simpa using htr
        rw [show mergeRun key w h l (m + 1) i visited
            = mergeRun key w h l m (i + 1) (markOne visited i) by
          simp [mergeRun, hvf, htrf]]
        exact ih (i + 1) _ (by omega)

/-- C2: Non-overlap.  No two boxes emitted by the greedy merger contain a
common cell: the emitted boxes are pairwise disjoint axis-aligned regions. -/
theorem boxes_disjoint (key : Nat → Option String) (w h l : Nat) :
    (mergeBoxes key w h l).Pairwise
      (fun b1 b2 => ∀ x y z, ¬(b1.memP x y z ∧ b2.memP x y z)) :=
  mergeRun_disjoint key w h l (w * h * l) 0 (fun _ => false) (by omega)

/-! ### Origin finder (findOrigin, commands.mjs lines 540-554)

The source keeps minZ/minX/minY (initialised to Infinity) together with the
current origin; they always hold the current origin's coordinates, so the
state is modelled as an optional origin triple (x, y, z).  A falsy key
(null, or the empty string under JS truthiness) skips the cell. -/

def findOriginLoop (key : Nat → Option String) (w l : Nat) :
    Nat → Nat → Option (Nat × Nat × Nat) → Option (Nat × Nat × Nat)
  | 0, _, acc => acc
  | fuel + 1, i, acc =>
    let acc' :=
      if keyTruthy (key i) then
        let x := xOf i w
        let y := yOf i w l
        let z := zOf i w l
        match acc with
        | none => some (x, y, z)
        | some (ox, oy, oz) =>
          if z < oz ∨ (z = oz ∧ x < ox) ∨ (z = oz ∧ x = ox ∧ y < oy) then
            some (x, y, z)
          else acc
      else acc
    findOriginLoop key w l fuel (i + 1) acc'

def findOrigin (key : Nat → Option String) (w h l : Nat) : Nat × Nat × Nat :=
  (findOriginLoop key w l (w * h * l) 0 none).getD (0, 0, 0)

/-- Lexicographic (z, x, y) order on (x, y, z) coordinate triples. -/
def lexZXY (a b : Nat × Nat × Nat) : Prop :=
  a.2.2 < b.2.2 ∨ (a.2.2 = b.2.2 ∧ a.1 < b.1) ∨
    (a.2.2 = b.2.2 ∧ a.1 = b.1 ∧ a.2.1 ≤ b.2.1)

def coordsOf (j w l : Nat) : Nat × Nat × Nat := (xOf j w, yOf j w l, zOf j w l)

theorem findOriginLoop_spec (key : Nat → Option String) (w l : Nat) :
    ∀ fuel i acc,
      (acc = none → ∀ j, j < i → keyTruthy (key j) = false) →
      (∀ o, acc = some o →
        (∃ j, j < i ∧ keyTruthy (key j) = true ∧ coordsOf j w l = o) ∧
        (∀ j, j < i → keyTruthy (key j) = true → lexZXY o (coordsOf j w l))) →
      (findOriginLoop key w l fuel i acc = none →
        ∀ j, j < i + fuel → keyTruthy (key j) = false) ∧
      (∀ o, findOriginLoop key w l fuel i acc = some o →
        (∃ j, j < i + fuel ∧ keyTruthy (key j) = true ∧ coordsOf j w l = o) ∧
        (∀ j, j < i + fuel → keyTruthy (key j) = true → lexZXY o (coordsOf j w l))) := by
  intro fuel
  induction fuel with
  | zero =>
    intro i acc h1 h2
    constructor
    · intro hres j hj
      exact h1 hres j (by omega)
    · intro o hres
      obtain ⟨he, hm⟩ := h2 o hres
      exact ⟨⟨he.choose, by omega, he.choose_spec.2⟩,
        fun j hj ht => hm j (by omega) ht⟩
  | succ m ih =>
    intro i acc h1 h2
    by_cases htr : keyTruthy (key i) = true
    · by_cases hacc : ∃ o, acc = some o
      · obtain ⟨⟨ox, oy, oz⟩, rfl⟩ := hacc
        by_cases hbetter : zOf i w l < oz ∨ (zOf i w l = oz ∧ xOf i w < ox) ∨
            (zOf i w l = oz ∧ xOf i w = ox ∧ yOf i w l < oy)
        · have hstep : findOriginLoop key w l (m + 1) i (some (ox, oy, oz))
              = findOriginLoop key w l m (i + 1)
                  (some (xOf i w, yOf i w l, zOf i w l)) := by
            simp [findOriginLoop, htr, hbetter]
          rw [hstep]
          have old := h2 (ox, oy, oz) rfl
          have := ih (i + 1) (some (xOf i w, yOf i w l, zOf i w l))
            (by intro hcontra; exact absurd hcontra (by simp))
            (by
              intro o ho
              rw [Option.some_inj] at ho
              subst ho
              constructor
              · exact ⟨i, by omega, htr, rfl⟩
              · intro j hj htj
                rcases Nat.lt_or_ge j i with hji | hji
                · have hold := old.2 j hji htj
                  dsimp only [lexZXY, coordsOf] at hold ⊢
                  omega
                · have : j = i := by omega
                  subst this
                  dsimp only [lexZXY, coordsOf]
                  omega)
          have harr : i + (m + 1) = i + 1 + m := by omega
          rw [harr]
          exact this
        · have hstep : findOriginLoop key w l (m + 1) i (some (ox, oy, oz))
              = findOriginLoop key w l m (i + 1) (some (ox, oy, oz)) := by
            simp [findOriginLoop, htr, hbetter]
          rw [hstep]
          have old := h2 (ox, oy, oz) rfl
          have := ih (i + 1) (some (ox, oy, oz))
            (by intro hcontra; exact absurd hcontra (by simp))
            (by
              intro o ho
              rw [Option.some_inj] at ho
              subst ho
              constructor
              · obtain ⟨j, hj, htj, hcj⟩ := old.1
                exact ⟨j, by omega, htj, hcj⟩
              · intro j hj htj
                rcases Nat.lt_or_ge j i with hji | hji
                · exact old.2 j hji htj
                · have : j = i := by omega
                  subst this
                  have hold2 := old.2
                  dsimp only [lexZXY, coordsOf]
                  push_neg at hbetter
                  omega)
          have harr : i + (m + 1) = i + 1 + m := by omega
          rw [harr]
          exact this
      · have hnone : acc = none := by
          cases acc with
          | none => rfl
          | some o => exact absurd ⟨o, rfl⟩ hacc
        subst hnone
        have hstep : findOriginLoop key w l (m + 1) i none
            = findOriginLoop key w l m (i + 1)
                (some (xOf i w, yOf i w l, zOf i w l)) := by
          simp [findOriginLoop, htr]
        rw [hstep]
        have := ih (i + 1) (some (xOf i w, yOf i w l, zOf i w l))
          (by intro hcontra; exact absurd hcontra (by simp))
          (by
            intro o ho
            rw [Option.some_inj] at ho
            subst ho
            constructor
            · exact ⟨i, by omega, htr, rfl⟩
            · intro j hj htj
              rcases Nat.lt_or_ge j i with hji | hji
              · have := h1 rfl j hji
                rw [this] at htj
                exact absurd htj (by simp)
              · have : j = i := by omega
                subst this
                dsimp only [lexZXY, coordsOf]
                omega)
        have harr : i + (m + 1) = i + 1 + m := by omega
        rw [harr]
        exact this
    · have htrf : keyTruthy (key i) = false := by simpa using htr
      have hstep : findOriginLoop key w l (m + 1) i acc
          = findOriginLoop key w l m (i + 1) acc := by
        cases acc with
        | none => simp [findOriginLoop, htrf]
        | some o =>
          obtain ⟨ox, oy, oz⟩ := o
          simp [findOriginLoop, htrf]
      rw [hstep]
      have := ih (i + 1) acc
        (by
          intro hn j hj
          rcases Nat.lt_or_ge j i with hji | hji
          · exact h1 hn j hji
          · have : j = i := by omega
            subst this
            exact htrf)
        (by
          intro o ho
          obtain ⟨he, hm⟩ := h2 o ho
          constructor
          · obtain ⟨j, hj, htj, hcj⟩ := he
            exact ⟨j, by omega, htj, hcj⟩
          · intro j hj htj
            rcases Nat.lt_or_ge j i with hji | hji
            · exact hm j hji htj
            · have : j = i := by omega
              subst this
              rw [htrf] at htj
              exact absurd htj (by simp))
      have harr : i + (m + 1) = i + 1 + m := by omega
      rw [harr]
      exact this

/-- C6: findOrigin returns, over all cells of the volume whose translated
key is non-null (the translator never yields the empty string for a valid
volume, hypothesis hk), the coordinates of the cell minimal in
lexicographic (z, x, y) order; if every cell translates to null it returns
(0, 0, 0). -/
theorem findOrigin_spec (key : Nat → Option String) (w h l : Nat)
    (hk : ∀ i, i < w * h * l → key i ≠ some ("")) :
    ((∀ i, i < w * h * l → key i = none) → findOrigin key w h l = (0, 0, 0)) ∧
    (∀ i, i < w * h * l → key i ≠ none →
      (∃ j, j < w * h * l ∧ key j ≠ none ∧ coordsOf j w l = findOrigin key w h l) ∧
      lexZXY (findOrigin key w h l) (coordsOf i w l)) := by
  have htruthy : ∀ j, j < w * h * l → (keyTruthy (key j) = true ↔ key j ≠ none) := by
    intro j hj
    cases hkey : key j with
    | none => simp [keyTruthy]
    | some s =>
      have hs : s ≠ "" := by
        intro hcontra
        exact hk j hj (by rw [hkey, hcontra])
      simp [keyTruthy, hs]
  have hloop := findOriginLoop_spec key w l (w * h * l) 0 none
    (by intro _ j hj; omega)
    (by intro o ho; exact absurd ho (by simp))
  constructor
  · intro hall
    unfold findOrigin
    cases hres : findOriginLoop key w l (w * h * l) 0 none with
    | none => rfl
    | some o =>
      obtain ⟨⟨j, hj, htj, _⟩, _⟩ := hloop.2 o hres
      have := (htruthy j (by omega)).mp htj
      exact absurd (hall j (by omega)) this
  · intro i hi hnone
    have htri : keyTruthy (key i) = true := (htruthy i hi).mpr hnone
    cases hres : findOriginLoop key w l (w * h * l) 0 none with
    | none =>
      have := hloop.1 hres i (by omega)
      rw [this] at htri
      exact absurd htri (by simp)
    | some o =>
      obtain ⟨⟨j, hj, htj, hcj⟩, hmin⟩ := hloop.2 o hres
      have hfo : findOrigin key w h l = o := by
        unfold findOrigin
        rw [hres]
        rfl
      rw [hfo]
      exact ⟨⟨j, by omega, (htruthy j (by omega)).mp htj, hcj⟩,
        hmin i (by omega) htri⟩

theorem findOrigin_spec_witness :
    lexZXY (findOrigin (fun i => if i = 0 then none else some ("stone")) 2 1 1)
      (coordsOf 1 2 1) :=
  ((findOrigin_spec (fun i => if i = 0 then none else some ("stone")) 2 1 1
    (by decide)).2 1 (by decide) (by decide)).2

/-! ### String helpers

JavaScript string operations are modelled over the character list of the
Lean string: split on a character, ASCII lower-casing (block identifiers
are ASCII), prefix tests.  JS Number(x) is modelled for the
decimal-integer literals that block state values use. -/

def splitChAux (c : Char) : List Char → List Char → List (List Char)
  | [], acc => [acc.reverse]
  | d :: rest, acc =>
    if d = c then acc.reverse :: splitChAux c rest []
    else splitChAux c rest (d :: acc)

def jsSplit (c : Char) (s : String) : List String :=
  (splitChAux c s.data []).map (fun l => ⟨l⟩)

def lowerChar (c : Char) : Char :=
  if 65 ≤ c.toNat ∧ c.toNat ≤ 90 then Char.ofNat (c.toNat + 32) else c

def lowerStr (s : String) : String := ⟨s.data.map lowerChar⟩

def containsCh (c : Char) (s : String) : Bool := s.data.contains c

def startsList : List Char → List Char → Bool
  | [], _ => true
  | _ :: _, [] => false
  | p :: ps, q :: qs => p == q && startsList ps qs

def startsW (p s : String) : Bool := startsList p.data s.data

/-- replace(/^minecraft:/, "") -/
def dropNS (s : String) : String :=
  if startsW ("minecraft:") s then ⟨s.data.drop 10⟩ else s

/-- normalizeNamespace (lines 47-52), for string inputs. -/
def normalizeNamespace (n : String) : String :=
  if n = ("") then ("")
  else
    let n' := lowerStr n
    if containsCh ':' n' then n' else ("minecraft:") ++ n'

/-- isAir (line 38). -/
def isAir (n : String) : Bool :=
  n == ("minecraft:air") || n == ("minecraft:cave_air") || n == ("minecraft:void_air")

/-- isAirName (line 403) is textually the same predicate. -/
def isAirName (n : String) : Bool := isAir n

/-- INVALID_BLOCKS (lines 31-35). -/
def INVALID_BLOCKS : List String :=
  [("minecraft:piston_head"), ("minecraft:moving_block"), ("minecraft:moving_piston")]

def digitsToNat : List Char → Nat → Nat
  | [], acc => acc
  | d :: rest, acc => digitsToNat rest (acc * 10 + (d.toNat - 48))

/-- JS Number(s), restricted to the nonnegative decimal integer literals
that appear as block state values. -/
def parseNatQ (s : String) : Option Nat :=
  if s.data ≠ [] ∧ s.data.all (fun c => 48 ≤ c.toNat ∧ c.toNat ≤ 57) then
    some (digitsToNat s.data 0)
  else none

/-- isNumericOrBoolean (lines 54-58); JSON booleans and numbers are
modelled by their string rendering. -/
def isNumericOrBoolean (v : String) : Bool :=
  v == ("true") || v == ("false") || (parseNatQ v).isSome

/-- JS template interpolation of a possibly-undefined value. -/
def jsStr : Option String → String
  | none => ("undefined")
  | some s => s

def quoteStr (s : String) : String := ("\"") ++ s ++ ("\"")

def joinComma : List String → String
  | [] => ("")
  | [x] => x
  | x :: rest => x ++ (",") ++ joinComma rest

/-! ### JS objects as association lists (insertion order preserved) -/

def getV {α : Type} : List (String × α) → String → Option α
  | [], _ => none
  | (k, v) :: rest, q => if k = q then some v else getV rest q

def hasKey {α : Type} (m : List (String × α)) (k : String) : Bool :=
  m.any (fun p => p.1 == k)

/-- obj[k] = v: update in place if present (insertion order kept), else
append. -/
def upd {α : Type} (m : List (String × α)) (k : String) (v : α) :
    List (String × α) :=
  if hasKey m k then m.map (fun p => if p.1 == k then (k, v) else p)
  else m ++ [(k, v)]

/-- delete obj[k]. -/
def eraseKey {α : Type} (m : List (String × α)) (k : String) :
    List (String × α) :=
  m.filter (fun p => !(p.1 == k))

/-- { ...a, ...b }. -/
def spread {α : Type} (a b : List (String × α)) : List (String × α) :=
  b.foldl (fun acc p => upd acc p.1 p.2) a

/-! ### Translation table model (java-to-bedrock.json entries, spec section 3)

A mapping node is either a string leaf or a JSON object; an object serves
both as a dispatch map (child per state value, with a "def" fallback) and
as a leaf carrying an optional bedrock name and optional
additions/removals/renames/remaps contributions (translateBlock lines
439-462).  A string node has no properties and no children, so reaching it
mid-walk aborts dispatch (the JS character-indexing quirk of strings under
a numeric key is not modelled; the tables never dispatch through string
leaves). -/

inductive Remap where
  | arr : List String → Remap
  | map : List (String × String) → Remap

structure LeafData where
  name : Option String
  adds : Option (List (String × String))
  rems : Option (List String)
  rens : Option (List (String × String))
  maps : Option (List (String × Remap))

inductive MNode where
  | str : String → MNode
  | obj : List (String × MNode) → LeafData → MNode

structure MapEntry where
  name : Option String
  identifier : Option (List String)
  mapping : Option MNode
  defaults : Option (List (String × String))
  removals : Option (List String)
  renames : Option (List (String × String))
  remaps : Option (List (String × Remap))
  additions : Option (List (String × String))
  tile_extra : Option (List (String × String))

abbrev TransTable := List (String × MapEntry)

/-- Java state list: value is None when a pair had no '=' (JS undefined). -/
abbrev JState := List (String × Option String)

def parseStates (stateStr : Option String) : JState :=
  match stateStr with
  | none => []
  | some ss =>
    let ss1 := if ss.data.getLast? = some ']' then (⟨ss.data.dropLast⟩ : String) else ss
    if ss1 = ("") then []
    else
      (jsSplit ',' ss1).foldl (fun js part =>
        let kv := jsSplit '=' part
        let k := kv.headD ("")
        let v := kv[1]?
        if k = ("") then js else upd js k v) []

def applyDefaults (js : JState) (defaults : Option (List (String × String))) : JState :=
  match defaults with
  | none => js
  | some ds =>
    ds.foldl (fun js p =>
      match getV js p.1 with
      | some (some _) => js
      | _ => upd js p.1 (some p.2)) js

def applyRemovals (js : JState) (rem : Option (List String)) : JState :=
  match rem with
  | none => js
  | some rs => rs.foldl (fun js k => eraseKey js k) js

def applyTileExtra (js : JState) (te : Option (List (String × String))) : JState :=
  match te with
  | none => js
  | some ts => ts.foldl (fun js p => eraseKey js p.2) js

/-- The identifier dispatch walk (lines 443-449). -/
def walkMapping (js : JState) : List String → MNode → Option MNode
  | [], node => some node
  | k :: rest, node =>
    match node with
    | .str _ => none
    | .obj children _ =>
      match getV js k with
      | some (some v) =>
        match getV children v with
        | some child => walkMapping js rest child
        | none =>
          match getV children ("def") with
          | some d => walkMapping js rest d
          | none => none
      | _ =>
        match getV children ("def") with
        | some d => walkMapping js rest d
        | none => none

/-- Merging an object leaf's contributions into the shared entry
(lines 455-458): additions/renames/remaps by object spread, removals by
list concatenation. -/
def leafMutate (e : MapEntry) (ld : LeafData) : MapEntry :=
  let e1 := match ld.adds with
    | none => e
    | some a => { e with additions := some (spread (e.additions.getD []) a) }
  let e2 := match ld.rems with
    | none => e1
    | some r => { e1 with removals := some (e1.removals.getD [] ++ r) }
  let e3 := match ld.rens with
    | none => e2
    | some r => { e2 with renames := some (spread (e2.renames.getD []) r) }
  match ld.maps with
  | none => e3
  | some r => { e3 with remaps := some (spread (e3.remaps.getD []) r) }

def leafMutated (ld : LeafData) : Bool :=
  ld.adds.isSome || ld.rems.isSome || ld.rens.isSome || ld.maps.isSome

/-- x || y for a string-valued JS expression ("" and undefined are falsy). -/
def jsOrStr (o : Option String) (d : String) : String :=
  match o with
  | none => d
  | some s => if s = ("") then d else s

def renderValue (v : Option String) : String :=
  let s := jsStr v
  if isNumericOrBoolean s then s else quoteStr s

/-- remap lookup and substitution (lines 471-479). -/
def applyRemap (remaps : Option (List (String × Remap)))
    (renamedKey jKey : String) (v : Option String) : Option String :=
  let spec := match remaps with
    | none => none
    | some rs =>
      match getV rs renamedKey with
      | some s => some s
      | none => getV rs jKey
  match spec with
  | none => v
  | some (.arr a) =>
    match v with
    | none => v
    | some sv =>
      match parseNatQ sv with
      | none => v
      | some idx =>
        match a[idx]? with
        | some nv => some nv
        | none => v
  | some (.map m) =>
    match getV m (jsStr v) with
    | some nv => some nv
    | none => v

/-- One emitted "key"=value pair per remaining state (lines 468-482). -/
def emitPairs (e : Option MapEntry) (js : JState) : List String :=
  js.map (fun p =>
    let jKey := p.1
    let renamedKey :=
      match e with
      | none => jKey
      | some ent =>
        match ent.renames with
        | none => jKey
        | some rens =>
          match getV rens jKey with
          | none => jKey
          | some r => if r = ("") then jKey else r
    let value := applyRemap (e.bind (fun ent => ent.remaps)) renamedKey jKey p.2
    quoteStr renamedKey ++ ("=") ++ renderValue value)

/-- Unconditional additions (lines 483-488). -/
def emitAdditions (adds : Option (List (String × String))) : List String :=
  match adds with
  | none => []
  | some a =>
    a.map (fun p =>
      quoteStr p.1 ++ ("=")
        ++ (if isNumericOrBoolean p.2 then p.2 else quoteStr p.2))

def attachStates (bn : String) (pairs : List String) : String :=
  if pairs = [] then bn else bn ++ ("[") ++ joinComma pairs ++ ("]")

/-- The body of translateBlock between the two air/invalid guards
(lines 415-489), returning the bedrock descriptor and the (possibly
mutated) table. -/
def translateBody (tbl : TransTable) (blockName : String)
    (stateStr : Option String) : String × TransTable :=
  let hit : Option (String × MapEntry) :=
    match getV tbl blockName with
    | some e => some (blockName, e)
    | none =>
      match getV tbl (dropNS blockName) with
      | some e => some (dropNS blockName, e)
      | none => none
  let e0 := hit.map (fun p => p.2)
  let js0 := parseStates stateStr
  let js1 := applyDefaults js0 (e0.bind (fun e => e.defaults))
  let js2 := applyRemovals js1 (e0.bind (fun e => e.removals))
  let js3 := applyTileExtra js2 (e0.bind (fun e => e.tile_extra))
  match hit with
  | none =>
    (attachStates blockName (emitPairs none js3), tbl)
  | some (foundKey, e) =>
    match e.mapping, e.identifier with
    | some m, some idKeys =>
      let node := walkMapping js3 idKeys m
      let step :=
        match node with
        | none => (none, e, false)
        | some (.str s) => (some (normalizeNamespace s), e, false)
        | some (.obj _ ld) =>
          (some (normalizeNamespace (jsOrStr ld.name ("minecraft:air"))),
            leafMutate e ld, leafMutated ld)
      let bn0 := step.1
      let e' := step.2.1
      let mutated := step.2.2
      let js4 := idKeys.foldl (fun js k => eraseKey js k) js3
      let bn2 :=
        match bn0 with
        | some s => if s = ("") then jsOrStr (e'.name.map normalizeNamespace) blockName else s
        | none => jsOrStr (e'.name.map normalizeNamespace) blockName
      let pairs := emitPairs (some e') js4 ++ emitAdditions e'.additions
      let tbl' := if mutated then upd tbl foundKey e' else tbl
      (attachStates bn2 pairs, tbl')
    | _, _ =>
      let pairs := emitPairs (some e) js3 ++ emitAdditions e.additions
      let bn2 := jsOrStr (e.name.map normalizeNamespace) blockName
      (attachStates bn2 pairs, tbl)

/-- translateBlock (lines 405-499) for string descriptors. -/
def translateBlock (tbl : TransTable) (javaBlock : String) :
    Option String × TransTable :=
  let parts := jsSplit '[' javaBlock
  let blockName := normalizeNamespace (parts.headD (""))
  if isAir blockName || INVALID_BLOCKS.contains blockName then (none, tbl)
  else
    let r := translateBody tbl blockName parts[1]?
    let outNameOnly := normalizeNamespace ((jsSplit '[' r.1).headD (""))
    if isAir outNameOnly || INVALID_BLOCKS.contains outNameOnly then (none, r.2)
    else (some r.1, r.2)

/-! ### Concrete table exhibiting the nested-leaf mutation

Entry for minecraft:b: identifier "k"; mapping "1" leads to an object leaf
naming minecraft:s1 and contributing removals ["k"]; "def" leads to the
string leaf minecraft:air.  This is a legal TranslationEntry shape per the
mapping-tree grammar. -/

def emptyLeaf : LeafData :=
  { name := none, adds := none, rems := none, rens := none, maps := none }

def cexEntry : MapEntry :=
  { name := none, identifier := some [("k")],
    mapping := some (.obj
      [(("1"), .obj [] { name := some ("minecraft:s1"), adds := none,
                         rems := some [("k")], rens := none, maps := none }),
       (("def"), .str ("minecraft:air"))]
      emptyLeaf),
    defaults := none, removals := none, renames := none, remaps := none,
    additions := none, tile_extra := none }

def cexTable : TransTable := [(("minecraft:b"), cexEntry)]

/-- C3 (code bug): translateBlock mutates the shared java-to-bedrock table
entry.  Translating minecraft:b[k=1] against cexTable appends the leaf's
removals to the shared entry, so the entry differs after the call. -/
theorem translateBlock_mutates_entry :
    (getV ((translateBlock cexTable ("minecraft:b[k=1]")).2) ("minecraft:b")).map
        (fun e => e.removals)
      ≠ (getV cexTable ("minecraft:b")).map (fun e => e.removals) := by
  decide

/-! ### Stateful pipeline (makeMergeKeyGetter / findOrigin / dumpSetblockCommands)

The getter closures carry a memo map and share the module-level
java-to-bedrock table, which translateBlock may mutate; both are threaded
explicitly.  findOrigin and the dump each create a fresh getter (fresh
memo) over the same shared table (lines 542, 564). -/

structure Schem where
  width : Nat
  height : Nat
  length : Nat
  type : String
  legacyBlocks : List Nat
  legacyData : List Nat
  blocks : List Nat
  paletteStr : List String

abbrev LegacyMap := List (String × String)

structure GetSt where
  cmemo : List (String × Option String)
  pmemo : List (Nat × Option String)
  tbl : TransTable

def getN {α : Type} : List (Nat × α) → Nat → Option α
  | [], _ => none
  | (k, v) :: rest, q => if k = q then some v else getN rest q

/-- sanitize (line 507). -/
def sanitize : Option String → Option String
  | none => none
  | some s =>
    if ¬ (s = ("")) ∧ startsW ("minecraft:") s = true then some (⟨s.data.drop 10⟩ : String)
    else some s

/-- The memoised getter of makeMergeKeyGetter (lines 502-538). -/
def getKeyS (lm : LegacyMap) (s : Schem) (st : GetSt) (i : Nat) :
    Option String × GetSt :=
  if s.type = ("classic") then
    let id := s.legacyBlocks.getD i 0
    let dv := s.legacyData.getD i 0
    let key := Nat.repr id ++ (":") ++ Nat.repr dv
    match getV st.cmemo key with
    | some v => (v, st)
    | none =>
      let javaName :=
        match getV lm key with
        | some j => j
        | none =>
          match getV lm (Nat.repr id ++ (":0")) with
          | some j => j
          | none => ("minecraft:air")
      if isAirName javaName then
        (none, { st with cmemo := st.cmemo ++ [(key, none)] })
      else
        let r := translateBlock st.tbl javaName
        let out := if isAir ((r.1).getD ("")) then none else sanitize r.1
        (out, { st with cmemo := st.cmemo ++ [(key, out)], tbl := r.2 })
  else
    let p := s.blocks.getD i 0
    match getN st.pmemo p with
    | some v => (v, st)
    | none =>
      let nm := s.paletteStr.getD p ("")
      let javaName := if nm = ("") then ("minecraft:air") else nm
      if isAirName javaName then
        (none, { st with pmemo := st.pmemo ++ [(p, none)] })
      else
        let r := translateBlock st.tbl javaName
        let out := if isAir ((r.1).getD ("")) then none else sanitize r.1
        (out, { st with pmemo := st.pmemo ++ [(p, out)], tbl := r.2 })

/-- findOrigin with the stateful getter (lines 540-554). -/
def findOriginS (lm : LegacyMap) (s : Schem) :
    Nat → Nat → GetSt → Option (Nat × Nat × Nat) → (Nat × Nat × Nat) × GetSt
  | 0, _, st, acc => (acc.getD (0, 0, 0), st)
  | fuel + 1, i, st, acc =>
    let r := getKeyS lm s st i
    let acc' :=
      if keyTruthy r.1 then
        let x := xOf i s.width
        let y := yOf i s.width s.length
        let z := zOf i s.width s.length
        match acc with
        | none => some (x, y, z)
        | some (ox, oy, oz) =>
          if z < oz ∨ (z = oz ∧ x < ox) ∨ (z = oz ∧ x = ox ∧ y < oy) then
            some (x, y, z)
          else acc
      else acc
    findOriginS lm s fuel (i + 1) r.2 acc'

/-- sameKey with the stateful getter (lines 567-571). -/
def sameKeyS (lm : LegacyMap) (s : Schem) (st : GetSt) (i j : Nat) :
    Bool × GetSt :=
  let r0 := getKeyS lm s st i
  match r0.1 with
  | none => (false, r0.2)
  | some k =>
    if k = ("") then (false, r0.2)
    else
      let r1 := getKeyS lm s r0.2 j
      (r1.1 == some k, r1.2)

def expandXS (lm : LegacyMap) (s : Schem) (visited : Nat → Bool)
    (i y0 z0 : Nat) : Nat → Nat → GetSt → Nat × GetSt
  | 0, x1, st => (x1, st)
  | fuel + 1, x1, st =>
    if x1 + 1 < s.width then
      let j := indexXZY (x1 + 1) y0 z0 s.width s.length
      if visited j then (x1, st)
      else
        let r := sameKeyS lm s st i j
        if r.1 then expandXS lm s visited i y0 z0 fuel (x1 + 1) r.2
        else (x1, r.2)
    else (x1, st)

/-- One row scan of the +Z / +Y checks, stopping at the first failure. -/
def scanRowS (lm : LegacyMap) (s : Schem) (visited : Nat → Bool)
    (i y z : Nat) : Nat → Nat → GetSt → Bool × GetSt
  | 0, _, st => (true, st)
  | n + 1, xi, st =>
    let j := indexXZY xi y z s.width s.length
    if visited j then (false, st)
    else
      let r := sameKeyS lm s st i j
      if r.1 then scanRowS lm s visited i y z n (xi + 1) r.2
      else (false, r.2)

def expandZS (lm : LegacyMap) (s : Schem) (visited : Nat → Bool)
    (i x0 x1 y0 : Nat) : Nat → Nat → GetSt → Nat × GetSt
  | 0, z1, st => (z1, st)
  | fuel + 1, z1, st =>
    if z1 + 1 < s.length then
      let r := scanRowS lm s visited i y0 (z1 + 1) (x1 + 1 - x0) x0 st
      if r.1 then expandZS lm s visited i x0 x1 y0 fuel (z1 + 1) r.2
      else (z1, r.2)
    else (z1, st)

def scanSlabS (lm : LegacyMap) (s : Schem) (visited : Nat → Bool)
    (i x0 xcnt y : Nat) : Nat → Nat → GetSt → Bool × GetSt
  | 0, _, st => (true, st)
  | n + 1, zi, st =>
    let r := scanRowS lm s visited i y zi xcnt x0 st
    if r.1 then scanSlabS lm s visited i x0 xcnt y n (zi + 1) r.2
    else (false, r.2)

def expandYS (lm : LegacyMap) (s : Schem) (visited : Nat → Bool)
    (i x0 x1 z0 z1 : Nat) : Nat → Nat → GetSt → Nat × GetSt
  | 0, y1, st => (y1, st)
  | fuel + 1, y1, st =>
    if y1 + 1 < s.height then
      let r := scanSlabS lm s visited i x0 (x1 + 1 - x0) (y1 + 1) (z1 + 1 - z0) z0 st
      if r.1 then expandYS lm s visited i x0 x1 z0 z1 fuel (y1 + 1) r.2
      else (y1, r.2)
    else (y1, st)

/-- One command line (lines 614-621); coordinates are origin-relative and
may be negative, so they are integers. -/
def renderCmd (origin : Nat × Nat × Nat) (b : Box) (k : String) : String :=
  let rx1 : Int := (b.x0 : Int) - (origin.1 : Int) + 1
  let ry1 : Int := (b.y0 : Int) - (origin.2.1 : Int) + 1
  let rz1 : Int := (b.z0 : Int) - (origin.2.2 : Int) + 1
  let rx2 : Int := (b.x1 : Int) - (origin.1 : Int) + 1
  let ry2 : Int := (b.y1 : Int) - (origin.2.1 : Int) + 1
  let rz2 : Int := (b.z1 : Int) - (origin.2.2 : Int) + 1
  if rx1 = rx2 ∧ ry1 = ry2 ∧ rz1 = rz2 then
    ("setblock ~") ++ rx1.repr ++ (" ~") ++ ry1.repr ++ (" ~") ++ rz1.repr
      ++ (" ") ++ k
  else
    ("fill ~") ++ rx1.repr ++ (" ~") ++ ry1.repr ++ (" ~") ++ rz1.repr
      ++ (" ~") ++ rx2.repr ++ (" ~") ++ ry2.repr ++ (" ~") ++ rz2.repr
      ++ (" ") ++ k

/-- The scan loop of dumpSetblockCommands with the stateful getter
(lines 573-623), producing the emitted lines in order. -/
def mergeScanS (lm : LegacyMap) (s : Schem) (origin : Nat × Nat × Nat) :
    Nat → Nat → (Nat → Bool) → GetSt → List String × GetSt
  | 0, _, _, st => ([], st)
  | fuel + 1, i, visited, st =>
    if visited i then mergeScanS lm s origin fuel (i + 1) visited st
    else
      let r0 := getKeyS lm s st i
      if keyTruthy r0.1 = false then
        mergeScanS lm s origin fuel (i + 1) (markOne visited i) r0.2
      else
        let w := s.width
        let l := s.length
        let x0 := xOf i w
        let y0 := yOf i w l
        let z0 := zOf i w l
        let rX := expandXS lm s visited i y0 z0 w x0 r0.2
        let x1 := rX.1
        let rZ := expandZS lm s visited i x0 x1 y0 l z0 rX.2
        let z1 := rZ.1
        let rY := expandYS lm s visited i x0 x1 z0 z1 s.height y0 rZ.2
        let y1 := rY.1
        let b : Box := ⟨x0, y0, z0, x1, y1, z1⟩
        let line := renderCmd origin b ((r0.1).getD (""))
        let rest := mergeScanS lm s origin fuel (i + 1) (markBox visited w l b) rY.2
        (line :: rest.1, rest.2)

/-- One conversion: findOrigin pass, then the dump pass, each with a fresh
memo over the shared table (dumpSetblockCommands lines 556-623). -/
def convertS (lm : LegacyMap) (tbl : TransTable) (s : Schem) :
    List String × TransTable :=
  let vol := s.width * s.height * s.length
  let rO := findOriginS lm s vol 0 ⟨[], [], tbl⟩ none
  let rM := mergeScanS lm s rO.1 vol 0 (fun _ => false) ⟨[], [], rO.2.tbl⟩
  (rM.1, rM.2.tbl)

/-- Modern 2x1x1 volume: cell 0 is minecraft:b[k=1], cell 1 is stone. -/
def cexSchem : Schem :=
  { width := 2, height := 1, length := 1, type := ("modern"),
    legacyBlocks := [], legacyData := [],
    blocks := [0, 1], paletteStr := [("minecraft:b[k=1]"), ("minecraft:stone")] }

/-- C4 (code bug): the pipeline is not deterministic across two successive
conversions sharing the startup-loaded translation table.  The first run's
findOrigin pass mutates the shared entry for minecraft:b (appending the
leaf's removals), which deletes the identifier key on the next translation
and flips the cell's translation from s1 to null; the second run therefore
picks a different origin and emits different bytes. -/
theorem pipeline_not_deterministic_across_runs :
    (convertS [] cexTable cexSchem).1
      ≠ (convertS [] (convertS [] cexTable cexSchem).2 cexSchem).1 := by
  decide

/-- Modern 1x1x1 volume whose palette is [minecraft:piston_head]. -/
def pistonSchem : Schem :=
  { width := 1, height := 1, length := 1, type := ("modern"),
    legacyBlocks := [], legacyData := [],
    blocks := [0], paletteStr := [("minecraft:piston_head")] }

/-- C7: a descriptor whose normalised name is in AirSet or InvalidSet
translates to null; a non-null translation result never has a bare name in
AirSet or InvalidSet (the post-translation guard); and the 1x1x1 modern
volume with palette [minecraft:piston_head] yields an empty command
stream. -/
theorem translate_air_invalid_null :
    (∀ (tbl : TransTable) (d : String),
      (isAir (normalizeNamespace ((jsSplit '[' d).headD (""))) = true ∨
        INVALID_BLOCKS.contains (normalizeNamespace ((jsSplit '[' d).headD (""))) = true) →
      (translateBlock tbl d).1 = none) ∧
    (∀ (tbl : TransTable) (d r : String), (translateBlock tbl d).1 = some r →
      ¬(isAir (normalizeNamespace ((jsSplit '[' r).headD (""))) = true ∨
        INVALID_BLOCKS.contains (normalizeNamespace ((jsSplit '[' r).headD (""))) = true)) ∧
    (convertS [] [] pistonSchem).1 = [] := by
  refine ⟨?_, ?_, by decide⟩
  · intro tbl d hcond
    have hc : (isAir (normalizeNamespace ((jsSplit '[' d).headD (""))) ||
        INVALID_BLOCKS.contains (normalizeNamespace ((jsSplit '[' d).headD ("")))) = true := by
      rw [Bool.or_eq_true]
      exact hcond
    simp only [translateBlock]
    split
    · rfl
    · next hneg => exact absurd hc hneg
  · intro tbl d r hres
    simp only [translateBlock] at hres
    split at hres
    · exact absurd hres (by simp)
    · split at hres
      · exact absurd hres (by simp)
      · next hguard =>
        intro hcontra
        apply hguard
        injection hres with hbn
        subst hbn
        rw [Bool.or_eq_true]
        exact hcontra

theorem translate_air_invalid_null_witness :
    (translateBlock cexTable ("minecraft:piston_head[extended=false]")).1 = none :=
  translate_air_invalid_null.1 cexTable ("minecraft:piston_head[extended=false]")
    (by decide)

/-! ### Classic loader (loadSchematic classic branch, lines 265-294) -/

/-- normalizeClassicArray (lines 204-228) on a numeric array: every element
masked. -/
def normalizeClassicArray (input : List Nat) (mask : Nat) : List Nat :=
  input.map (fun x => x &&& mask)

/-- The classic branch: Blocks masked to bytes, Data masked to low nibbles
(zeros when absent), AddBlocks spliced in as the high 4 bits of two cells
per byte when long enough.  Returns (ids, data). -/
def classicLoad (bRaw : List Nat) (dRaw addRaw : Option (List Nat)) (vol : Nat) :
    List Nat × List Nat :=
  let b := normalizeClassicArray bRaw 255
  let d :=
    match dRaw with
    | none => List.replicate vol 0
    | some ds => normalizeClassicArray ds 15
  let ids :=
    match addRaw with
    | some addR =>
      let add := normalizeClassicArray addR 255
      if (vol + 1) / 2 ≤ add.length then
        (List.range vol).map (fun i =>
          let hiByte := add.getD (i >>> 1) 0
          let hi4 := if i &&& 1 = 1 then hiByte &&& 15 else hiByte >>> 4
          ((hi4 &&& 15) <<< 8) ||| (b.getD i 0 &&& 255))
      else b
    | none => b
  (ids, d)

theorem and255_eq_mod (x : Nat) : x &&& 255 = x % 256 := by
  have h : (255 : Nat) = 2 ^ 8 - 1 := by norm_num
  rw [h, Nat.and_pow_two_sub_one_eq_mod]

theorem and15_eq_mod (x : Nat) : x &&& 15 = x % 16 := by
  have h : (15 : Nat) = 2 ^ 4 - 1 := by norm_num
  rw [h, Nat.and_pow_two_sub_one_eq_mod]

theorem shr4_eq_div (x : Nat) : x >>> 4 = x / 16 := by
  rw [Nat.shiftRight_eq_div_pow]

theorem shr1_eq_div (x : Nat) : x >>> 1 = x / 2 := by
  rw [Nat.shiftRight_eq_div_pow]

theorem lor_byte (hi lo : Nat) (hlo : lo < 256) :
    (hi <<< 8) ||| lo = hi * 256 + lo := by
  have hlo' : lo < 2 ^ 8 := by norm_num; omega
  have hor := Nat.mul_add_lt_is_or (i := 8) hlo' hi
  rw [Nat.shiftLeft_eq]
  calc hi * 2 ^ 8 ||| lo = 2 ^ 8 * hi ||| lo := by rw [Nat.mul_comm]
    _ = 2 ^ 8 * hi + lo := hor.symm
    _ = hi * 256 + lo := by ring_nf

/-- C8: with an AddBlocks array of length at least ceil(vol/2), cell i's
combined id is its add nibble (high nibble for even i, low nibble for odd
i) times 256 plus the Blocks byte; with Data absent every cell's metadata
is 0.  The right-hand side is the claim's formula written in plain
arithmetic; the left-hand side is the source's shift/mask computation. -/
theorem classic_add_blocks (bRaw addRaw : List Nat) (vol i : Nat)
    (hlen : (vol + 1) / 2 ≤ addRaw.length) (hi : i < vol) :
    (classicLoad bRaw none (some addRaw) vol).1.getD i 0
        = (if i % 2 = 0 then addRaw.getD (i / 2) 0 % 256 / 16
           else addRaw.getD (i / 2) 0 % 256 % 16) * 256
          + bRaw.getD i 0 % 256
      ∧ (classicLoad bRaw none (some addRaw) vol).2.getD i 0 = 0 := by
  have hlen' : (vol + 1) / 2 ≤ (normalizeClassicArray addRaw 255).length := by
    simpa [normalizeClassicArray] using hlen
  constructor
  · simp only [classicLoad, if_pos hlen']
    rw [List.getD_eq_getElem _ _ (by simpa using hi)]
    simp only [List.getElem_map, List.getElem_range]
    have hadd : (normalizeClassicArray addRaw 255).getD (i >>> 1) 0
        = addRaw.getD (i / 2) 0 % 256 := by
      rw [shr1_eq_div]
      have hi2 : i / 2 < addRaw.length := by
        have : i / 2 < (vol + 1) / 2 := by omega
        omega
      unfold normalizeClassicArray
      rw [List.getD_eq_getElem _ _ (by simpa using hi2),
        List.getD_eq_getElem _ _ hi2]
      rw [List.getElem_map, and255_eq_mod]
    have hb : (normalizeClassicArray bRaw 255).getD i 0 &&& 255
        = bRaw.getD i 0 % 256 := by
      unfold normalizeClassicArray
      by_cases hib : i < bRaw.length
      · rw [List.getD_eq_getElem _ _ (by simpa using hib),
          List.getD_eq_getElem _ _ hib]
        rw [List.getElem_map, and255_eq_mod, and255_eq_mod, Nat.mod_mod_of_dvd _ dvd_rfl]
      · rw [List.getD_eq_default _ _ (by simpa using Nat.le_of_not_lt hib),
          List.getD_eq_default _ _ (by simpa using Nat.le_of_not_lt hib)]
        simp
    rw [hadd, hb]
    set a := addRaw.getD (i / 2) 0 % 256 with ha
    have halt : a < 256 := by
      rw [ha]; exact Nat.mod_lt _ (by omega)
    have hodd : i &&& 1 = i % 2 := Nat.and_one_is_mod i
    have hnib : (if i &&& 1 = 1 then a &&& 15 else a >>> 4)
        = if i % 2 = 0 then a / 16 else a % 16 := by
      rw [hodd, and15_eq_mod, shr4_eq_div]
      rcases Nat.mod_two_eq_zero_or_one i with he | he
      · rw [he, if_neg (by omega), if_pos rfl]
      · rw [he, if_pos rfl, if_neg (by omega)]
    rw [hnib]
    set nib := if i % 2 = 0 then a / 16 else a % 16 with hnibdef
    have hniblt : nib < 16 := by
      rw [hnibdef]
      rcases Nat.mod_two_eq_zero_or_one i with he | he
      · rw [he, if_pos rfl]
        omega
      · rw [he, if_neg (by omega)]
        exact Nat.mod_lt _ (by omega)
    have hmask : nib &&& 15 = nib := by
      rw [and15_eq_mod]
      exact Nat.mod_eq_of_lt (by omega)
    rw [hmask, lor_byte _ _ (Nat.mod_lt _ (by omega))]
  · simp only [classicLoad]
    rw [List.getD_eq_getElem _ _ (by simpa using hi)]
    simp

theorem classic_add_blocks_witness :
    (classicLoad [7, 9] none (some [0x12]) 2).1.getD 0 0
        = (if 0 % 2 = 0 then ([0x12] : List Nat).getD 0 0 % 256 / 16
           else ([0x12] : List Nat).getD 0 0 % 256 % 16) * 256
          + ([7, 9] : List Nat).getD 0 0 % 256
      ∧ (classicLoad [7, 9] none (some [0x12]) 2).2.getD 0 0 = 0 :=
  classic_add_blocks [7, 9] [0x12] 2 0 (by decide) (by decide)

/-! ### Decompressor (maybeDecompress, lines 41-45)

gunzipSync and inflateSync are zlib library calls: they are modelled as
abstract optional decoders (None models a thrown error, caught by the
source's empty catch blocks). -/

def maybeDecompress (gunzip inflate : List Nat → Option (List Nat))
    (raw : List Nat) : List Nat :=
  match gunzip raw with
  | some out => out
  | none =>
    match inflate raw with
    | some out => out
    | none => raw

/-- C9: maybeDecompress is total and never fails: it returns the gzip
decoding when the bytes are valid gzip, otherwise the zlib decoding when
valid zlib, otherwise the input unchanged. -/
theorem maybeDecompress_spec (gunzip inflate : List Nat → Option (List Nat))
    (raw : List Nat) :
    (∀ out, gunzip raw = some out → maybeDecompress gunzip inflate raw = out) ∧
    (gunzip raw = none → ∀ out, inflate raw = some out →
      maybeDecompress gunzip inflate raw = out) ∧
    (gunzip raw = none → inflate raw = none →
      maybeDecompress gunzip inflate raw = raw) := by
  refine ⟨?_, ?_, ?_⟩
  · intro out hg
    simp [maybeDecompress, hg]
  · intro hg out hz
    simp [maybeDecompress, hg, hz]
  · intro hg hz
    simp [maybeDecompress, hg, hz]

theorem maybeDecompress_spec_witness :
    maybeDecompress (fun _ => none) (fun _ => none) [3, 1, 4] = [3, 1, 4] :=
  (maybeDecompress_spec (fun _ => none) (fun _ => none) [3, 1, 4]).2.2 rfl rfl

/-! ### Classic merge key (makeMergeKeyGetter classic branch, lines 509-523)

The memo cache returns the value computed at first query, so for a fixed
table the per-cell key is this pure computation. -/

def classicKey (lm : LegacyMap) (tbl : TransTable) (blocks data : List Nat)
    (i : Nat) : Option String :=
  let id := blocks.getD i 0
  let dv := data.getD i 0
  let key := Nat.repr id ++ (":") ++ Nat.repr dv
  let javaName :=
    match getV lm key with
    | some j => j
    | none =>
      match getV lm (Nat.repr id ++ (":0")) with
      | some j => j
      | none => ("minecraft:air")
  if isAirName javaName then none
  else
    let r := translateBlock tbl javaName
    if isAir ((r.1).getD ("")) then none else sanitize r.1

/-- C10: a classic cell whose legacy key "id:data" is absent from the
legacy map falls back to the entry for "id:0"; if that is also absent the
cell is treated as minecraft:air, its key is null, and no emitted box
contains it. -/
theorem classic_legacy_fallback (lm : LegacyMap) (tbl : TransTable)
    (blocks data : List Nat) (i : Nat)
    (hmiss : getV lm (Nat.repr (blocks.getD i 0) ++ (":")
      ++ Nat.repr (data.getD i 0)) = none) :
    (∀ j, getV lm (Nat.repr (blocks.getD i 0) ++ (":0")) = some j →
      classicKey lm tbl blocks data i
        = (if isAirName j then none
           else if isAir (((translateBlock tbl j).1).getD ("")) then none
           else sanitize (translateBlock tbl j).1)) ∧
    (getV lm (Nat.repr (blocks.getD i 0) ++ (":0")) = none →
      classicKey lm tbl blocks data i = none ∧
      ∀ w h l b, b ∈ mergeBoxes (classicKey lm tbl blocks data) w h l →
        ¬ b.memP (xOf i w) (yOf i w l) (zOf i w l)) := by
  constructor
  · intro j hj
    simp only [classicKey, hmiss, hj]
  · intro hj0
    have hnull : classicKey lm tbl blocks data i = none := by
      simp only [classicKey, hmiss, hj0]
      simp [isAirName, isAir]
    refine ⟨hnull, ?_⟩
    intro w h l b hb hmem
    have hspec := mergeRun_boxes (classicKey lm tbl blocks data) w h l
      (w * h * l) 0 (fun _ => false) (by omega) b hb
    obtain ⟨_, k0, _, hcells⟩ := hspec
    have := (hcells _ _ _ hmem).2
    rw [indexXZY_coords] at this
    rw [hnull] at this
    exact Option.noConfusion this

theorem classic_legacy_fallback_witness :
    classicKey [(("1:0"), ("minecraft:stone"))] [] [1] [5] 0
      = (if isAirName ("minecraft:stone") then none
         else if isAir (((translateBlock [] ("minecraft:stone")).1).getD ("")) then none
         else sanitize (translateBlock [] ("minecraft:stone")).1) :=
  (classic_legacy_fallback [(("1:0"), ("minecraft:stone"))] [] [1] [5] 0
      (by decide)).1 ("minecraft:stone") (by decide)
